import Mathlib

/-!
Shallow embedding of `response-rewriter` (src/main.ts) and verification of the
frozen claims about its specification.

Conventions used throughout:
* JavaScript byte values (`Uint8Array` entries) are `Nat` restricted to `< 256`
  by hypothesis where it matters.
* JavaScript strings are modelled as `List Char`; Unicode code points as `Nat`.
* Bit-mask operations on bytes are translated to the equivalent arithmetic on
  `Nat` (for `b < 256`: `b &&& 0x80 = 0 ↔ b ≤ 0x7f`, `b &&& 0xe0 = 0xc0 ↔
  0xc0 ≤ b ∧ b ≤ 0xdf`, `b &&& 0x1f = b % 0x20`, `x <<< k = x * 2^k`, and a
  bitwise-or of disjoint fields is addition).
* Fallible operations return `Option`; a `TransformStream` transformer is a
  function from (state, chunk) to (state, list of enqueued outputs).
-/

namespace ResponseRewriter

/-! ## Utf8Codec (src/main.ts lines 91-170) -/

/-- `getUtf8SequenceInfo` (main.ts 91-100), reduced to the `length` field (the
`expectedBytes` field is never read by any caller).  Original tests, in order:
`(byte & 0x80) === 0` → 1; `(byte & 0xe0) === 0xc0` → 2; `(byte & 0xf0) === 0xe0`
→ 3; `(byte & 0xf8) === 0xf0` → 4; otherwise 0 (invalid lead byte).  For bytes
below 256 the masks are the interval tests written here. -/
def getUtf8SequenceInfo (byte : Nat) : Nat :=
  if byte ≤ 0x7f then 1
  else if 0xc0 ≤ byte ∧ byte ≤ 0xdf then 2
  else if 0xe0 ≤ byte ∧ byte ≤ 0xef then 3
  else if 0xf0 ≤ byte ∧ byte ≤ 0xf7 then 4
  else 0

/-- `isValidUtf8Sequence` (main.ts 107-144).  The `switch` on `bytes.length`:
length 1 requires `first ≤ 0x7f`; length 2 rejects `first < 0xc2 || first > 0xdf`;
length 3 rejects `first == 0xe0` with second byte outside `[0xa0,0xbf]` and
`first == 0xed` with second byte outside `[0x80,0x9f]` (and nothing else: leads
outside `[0xe0,0xef]` fall through, exactly as in the source); length 4 rejects
`first == 0xf0` with second outside `[0x90,0xbf]`, `first == 0xf4` with second
outside `[0x80,0x8f]`, and `first < 0xf0 || first > 0xf4`; other lengths return
false.  Finally every byte after the first must lie in `[0x80,0xbf]`. -/
def isValidUtf8Sequence (bytes : List Nat) : Bool :=
  (match bytes with
    | [first] => decide (first ≤ 0x7f)
    | [first, _] => decide (¬ (first < 0xc2 ∨ first > 0xdf))
    | [first, b1, _] =>
        decide (¬ (first = 0xe0 ∧ (b1 < 0xa0 ∨ b1 > 0xbf)) ∧
                ¬ (first = 0xed ∧ (b1 < 0x80 ∨ b1 > 0x9f)))
    | [first, b1, _, _] =>
        decide (¬ (first = 0xf0 ∧ (b1 < 0x90 ∨ b1 > 0xbf)) ∧
                ¬ (first = 0xf4 ∧ (b1 < 0x80 ∨ b1 > 0x8f)) ∧
                ¬ (first < 0xf0 ∨ first > 0xf4))
    | _ => false) &&
  bytes.tail.all (fun b => decide (0x80 ≤ b ∧ b ≤ 0xbf))

/-- `codePointFromUtf8` (main.ts 151-170): `null` when `isValidUtf8Sequence`
fails, otherwise the standard bit-assembly of the code point
(`(first & 0x1f) << 6 | (b1 & 0x3f)` becomes `first % 0x20 * 0x40 + b1 % 0x40`,
and similarly for lengths 3 and 4; for other lengths no branch assigns and the
initial `codePoint = 0` is returned, unreachable after validation). -/
def codePointFromUtf8 (bytes : List Nat) : Option Nat :=
  if ¬ isValidUtf8Sequence bytes then none
  else match bytes with
    | [first] => some first
    | [first, b1] => some (first % 0x20 * 0x40 + b1 % 0x40)
    | [first, b1, b2] => some (first % 0x10 * 0x1000 + b1 % 0x40 * 0x40 + b2 % 0x40)
    | [first, b1, b2, b3] =>
        some (first % 0x8 * 0x40000 + b1 % 0x40 * 0x1000 + b2 % 0x40 * 0x40 + b3 % 0x40)
    | _ => some 0

/-- The standard minimal UTF-8 encoding of a Unicode scalar value.  This is the
spec-side reference ("standard minimal UTF-8 encoding" in the claim); it is not
taken from the repository. -/
def utf8Encode (c : Nat) : List Nat :=
  if c < 0x80 then [c]
  else if c < 0x800 then [0xc0 + c / 0x40, 0x80 + c % 0x40]
  else if c < 0x10000 then [0xe0 + c / 0x1000, 0x80 + c / 0x40 % 0x40, 0x80 + c % 0x40]
  else [0xf0 + c / 0x40000, 0x80 + c / 0x1000 % 0x40, 0x80 + c / 0x40 % 0x40, 0x80 + c % 0x40]

theorem getUtf8SequenceInfo_le_four (b : Nat) : getUtf8SequenceInfo b ≤ 4 := by
  unfold getUtf8SequenceInfo
  split_ifs <;> omega

/-! ## JsonStreamRewriter: escape-state machine and chunk transform
(src/main.ts lines 8-31 and 314-477) -/

/-- The `EscapeState` enum (main.ts 8-31). -/
inductive EscapeState where
  | Normal | Escaped | Unicode1 | Unicode2 | Unicode3 | Unicode4
  | HighSurrogate | LowSurrogate1 | LowSurrogate2 | LowSurrogate3 | LowSurrogate4
  deriving DecidableEq, Repr

/-- Models `transformer.escapeState++` at its two use sites (main.ts 349 and
392): the numeric successor inside the `Unicode1..4` and `LowSurrogate1..4`
runs of the enum. -/
def escSucc : EscapeState → EscapeState
  | .Unicode1 => .Unicode2
  | .Unicode2 => .Unicode3
  | .Unicode3 => .Unicode4
  | .LowSurrogate1 => .LowSurrogate2
  | .LowSurrogate2 => .LowSurrogate3
  | .LowSurrogate3 => .LowSurrogate4
  | s => s

/-- The regex `/[0-9a-fA-F]/.test(char)` (main.ts 347, 357, 390, 401). -/
def isHexDigit (c : Char) : Bool :=
  (decide (('0' : Char) ≤ c) && decide (c ≤ '9')) ||
  (decide (('a' : Char) ≤ c) && decide (c ≤ 'f')) ||
  (decide (('A' : Char) ≤ c) && decide (c ≤ 'F'))

/-- Value of one hexadecimal digit character. -/
def hexDigitVal (c : Char) : Nat :=
  if ('0' : Char) ≤ c ∧ c ≤ '9' then c.toNat - '0'.toNat
  else if ('a' : Char) ≤ c ∧ c ≤ 'f' then c.toNat - 'a'.toNat + 10
  else c.toNat - 'A'.toNat + 10

/-- `Number.parseInt(s, 16)` on a string of hex digits (main.ts 360, 403, 406). -/
def parseHex (s : List Char) : Nat :=
  s.foldl (fun a c => a * 16 + hexDigitVal c) 0

/-- The mutable fields of the `JsonTransformer` (main.ts 38-57) that the
`transform` step reads or writes.  The clarinet parser itself is an external
collaborator; it is only ever written to in `flush` (main.ts 453), so the
transform-time state needs no parser component. -/
structure JsonTState where
  buffer : List Char
  tokens : List (List Char)
  depth : Int
  inString : Bool
  escapeState : EscapeState
  unicodeChars : List Char
  highSurrogate : Option (List Char)
  lowSurrogate : List Char
  deriving DecidableEq, Repr

/-- Initial transformer state set in `start` (main.ts 255-263). -/
def jsonInitState : JsonTState :=
  { buffer := [], tokens := [], depth := 0, inString := false, escapeState := .Normal,
    unicodeChars := [], highSurrogate := none, lowSurrogate := [] }

/-- One iteration of the character loop in `transform` (main.ts 318-421): the
`switch` over `escapeState`, followed by the unconditional
`transformer.buffer += char`. -/
def jsonTransformChar (st : JsonTState) (c : Char) : JsonTState :=
  let s :=
    match st.escapeState with
    | .Normal =>
        if c = '\\' then { st with escapeState := .Escaped }
        else if c = '"' ∧ st.depth = 0 then { st with inString := ! st.inString }
        else st
    | .Escaped =>
        if c = 'u' then
          { st with
            escapeState := if st.highSurrogate.isSome then .LowSurrogate1 else .Unicode1,
            unicodeChars := [], lowSurrogate := [] }
        else
          -- when a high surrogate was pending it is cleared (invalid pairing);
          -- when none was pending the write of `null` is a no-op, so the two
          -- source branches collapse to one update here
          { st with highSurrogate := none, escapeState := .Normal }
    | .Unicode1 | .Unicode2 | .Unicode3 =>
        if isHexDigit c then
          { st with unicodeChars := st.unicodeChars ++ [c], escapeState := escSucc st.escapeState }
        else { st with escapeState := .Normal, highSurrogate := none }
    | .Unicode4 =>
        if isHexDigit c then
          let u := st.unicodeChars ++ [c]
          if 0xd800 ≤ parseHex u ∧ parseHex u ≤ 0xdbff then
            { st with unicodeChars := u, highSurrogate := some u, escapeState := .HighSurrogate }
          else
            { st with unicodeChars := u, highSurrogate := none, escapeState := .Normal }
        else { st with escapeState := .Normal, highSurrogate := none }
    | .HighSurrogate =>
        if c = '\\' then { st with escapeState := .Escaped }
        else
          -- source comment: "DO NOT reset highSurrogate here. Wait for flush()."
          { st with escapeState := .Normal }
    | .LowSurrogate1 | .LowSurrogate2 | .LowSurrogate3 =>
        if isHexDigit c then
          { st with lowSurrogate := st.lowSurrogate ++ [c], escapeState := escSucc st.escapeState }
        else { st with highSurrogate := none, escapeState := .Normal }
    | .LowSurrogate4 =>
        if isHexDigit c then
          let l := st.lowSurrogate ++ [c]
          if 0xdc00 ≤ parseHex l ∧ parseHex l ≤ 0xdfff ∧ st.highSurrogate.isSome then
            { st with
              lowSurrogate := l,
              unicodeChars := Nat.toDigits 16
                ((parseHex (st.highSurrogate.getD []) - 0xd800) * 0x400 +
                  (parseHex l - 0xdc00) + 0x10000),
              escapeState := .Normal,
              highSurrogate := none }
          else
            -- note the source has no inner else: on a hex digit that does not
            -- complete a valid pair, escapeState stays LowSurrogate4 and only
            -- highSurrogate is reset
            { st with lowSurrogate := l, highSurrogate := none }
        else { st with highSurrogate := none, escapeState := .Normal }
  { s with buffer := s.buffer ++ [c] }

/-- The whole `transform` callback (main.ts 314-435) on one chunk: the character
loop, then the incomplete-escape handling (append a lone backslash and emit
nothing while in `Escaped`), then the token flush (`tokens.join('')` enqueued
and `tokens` cleared when non-empty).  Returns the new state and the list of
chunks enqueued by this call. -/
def jsonTransformChunk (st0 : JsonTState) (chunk : List Char) :
    JsonTState × List (List Char) :=
  let st1 := chunk.foldl jsonTransformChar st0
  let st2 := if st1.escapeState = .Escaped ∧ st1.buffer.getLast? ≠ some '\\'
             then { st1 with buffer := st1.buffer ++ ['\\'] } else st1
  if st2.escapeState = .Escaped then (st2, [])
  else if st2.tokens ≠ [] then ({ st2 with tokens := [] }, [st2.tokens.flatten])
  else (st2, [])

/-- Feeding a whole chunk sequence through successive `transform` calls,
collecting every enqueued output in order. -/
def runJsonChunks : JsonTState → List (List Char) → JsonTState × List (List Char)
  | st, [] => (st, [])
  | st, chunk :: rest =>
      let p := jsonTransformChunk st chunk
      let q := runJsonChunks p.1 rest
      (q.1, p.2 ++ q.2)

/-- The raw text handed to the structural parser by `flush` (main.ts 437-460):
if the machine is still in `HighSurrogate`, the literal escape text
`\u` + the 4 pending hex digits is prepended to the buffer; the result is what
`parser.write` receives. -/
def jsonFlushParserInput (st : JsonTState) : List Char :=
  if st.escapeState = .HighSurrogate then
    '\\' :: 'u' :: (st.highSurrogate.getD [] ++ st.buffer)
  else st.buffer

/-- Number of occurrences of `pat` as a contiguous sublist of `s` (counting
start positions). -/
def countOccurrences (pat s : List Char) : Nat :=
  ((List.range (s.length + 1)).filter (fun i => pat.isPrefixOf (s.drop i))).length

/-- `jsonTransformChar` never touches the token buffer: tokens are only ever
pushed by the clarinet callbacks, which fire only under `parser.write`, which
`transform` never calls. -/
theorem jsonTransformChar_tokens (st : JsonTState) (c : Char) :
    (jsonTransformChar st c).tokens = st.tokens := by
  unfold jsonTransformChar
  cases st.escapeState <;> dsimp only <;> split_ifs <;> rfl

theorem jsonFoldl_tokens (st : JsonTState) (chunk : List Char) :
    (chunk.foldl jsonTransformChar st).tokens = st.tokens := by
  induction chunk generalizing st with
  | nil => rfl
  | cons c cs ih => rw [List.foldl_cons, ih, jsonTransformChar_tokens]

theorem jsonTransformChunk_emits_nothing (st : JsonTState) (chunk : List Char)
    (h : st.tokens = []) :
    (jsonTransformChunk st chunk).2 = [] ∧ (jsonTransformChunk st chunk).1.tokens = [] := by
  unfold jsonTransformChunk
  have h1 : (chunk.foldl jsonTransformChar st).tokens = [] := by
    rw [jsonFoldl_tokens, h]
  dsimp only
  split_ifs <;> simp_all

theorem getUtf8SequenceInfo_eq_three {b : Nat} (h : getUtf8SequenceInfo b = 3) :
    0xe0 ≤ b ∧ b ≤ 0xef := by
  unfold getUtf8SequenceInfo at h
  split_ifs at h <;> omega

/-- The buffer/escape-state invariant of the transform loop: in `Escaped` the
buffer ends with a backslash; in `Unicode1..4` it ends with `\u` followed by
exactly the hex digits accumulated so far; in `HighSurrogate` it ends with the
full pending escape text `\u` + 4 hex digits.  This is what makes the flush
prepend a *second* copy of text the buffer already holds. -/
def escInv (st : JsonTState) : Prop :=
  match st.escapeState with
  | .Escaped => ∃ q, st.buffer = q ++ ['\\']
  | .Unicode1 => st.unicodeChars.length = 0 ∧ ∃ p, st.buffer = p ++ '\\' :: 'u' :: st.unicodeChars
  | .Unicode2 => st.unicodeChars.length = 1 ∧ ∃ p, st.buffer = p ++ '\\' :: 'u' :: st.unicodeChars
  | .Unicode3 => st.unicodeChars.length = 2 ∧ ∃ p, st.buffer = p ++ '\\' :: 'u' :: st.unicodeChars
  | .Unicode4 => st.unicodeChars.length = 3 ∧ ∃ p, st.buffer = p ++ '\\' :: 'u' :: st.unicodeChars
  | .HighSurrogate => ∃ h p, st.highSurrogate = some h ∧ h.length = 4 ∧
      st.buffer = p ++ '\\' :: 'u' :: h
  | _ => True

theorem escInv_char (st : JsonTState) (c : Char) (hinv : escInv st) :
    escInv (jsonTransformChar st c) := by
  unfold jsonTransformChar
  cases hst : st.escapeState <;> simp only [escInv, hst] at hinv <;> dsimp only
  case Normal =>
    split_ifs with h1 h2
    · exact ⟨st.buffer, by rw [h1]⟩
    · simp [escInv, hst]
    · simp [escInv, hst]
  case Escaped =>
    obtain ⟨q, hq⟩ := hinv
    split_ifs with h1 h2
    · -- pending high surrogate: → LowSurrogate1, invariant trivial
      simp [escInv]
    · -- no pending high surrogate: → Unicode1
      exact ⟨rfl, q, by simp [hq, h1]⟩
    · simp [escInv]
  case Unicode1 =>
    obtain ⟨hl, p, hp⟩ := hinv
    split_ifs with h1
    · exact ⟨by simp [hl], p, by simp [hp]⟩
    · simp [escInv]
  case Unicode2 =>
    obtain ⟨hl, p, hp⟩ := hinv
    split_ifs with h1
    · exact ⟨by simp [hl], p, by simp [hp]⟩
    · simp [escInv]
  case Unicode3 =>
    obtain ⟨hl, p, hp⟩ := hinv
    split_ifs with h1
    · exact ⟨by simp [hl], p, by simp [hp]⟩
    · simp [escInv]
  case Unicode4 =>
    obtain ⟨hl, p, hp⟩ := hinv
    split_ifs with h1 h2
    · exact ⟨st.unicodeChars ++ [c], p, rfl, by simp [hl], by simp [hp]⟩
    · simp [escInv]
    · simp [escInv]
  case HighSurrogate =>
    split_ifs with h1
    · exact ⟨st.buffer, by rw [h1]⟩
    · simp [escInv]
  case LowSurrogate1 =>
    split_ifs with h1 <;> simp [escInv, escSucc]
  case LowSurrogate2 =>
    split_ifs with h1 <;> simp [escInv, escSucc]
  case LowSurrogate3 =>
    split_ifs with h1 <;> simp [escInv, escSucc]
  case LowSurrogate4 =>
    split_ifs with h1 h2 <;> simp [escInv]

theorem escInv_foldl (st : JsonTState) (chunk : List Char) (hinv : escInv st) :
    escInv (chunk.foldl jsonTransformChar st) := by
  induction chunk generalizing st with
  | nil => exact hinv
  | cons c cs ih => exact ih _ (escInv_char st c hinv)

theorem escInv_chunk (st : JsonTState) (chunk : List Char) (hinv : escInv st) :
    escInv (jsonTransformChunk st chunk).1 := by
  unfold jsonTransformChunk
  have h1 := escInv_foldl st chunk hinv
  dsimp only
  split_ifs with ha hb hc hd he
  · simp only [escInv, ha.1]
    exact ⟨(chunk.foldl jsonTransformChar st).buffer, rfl⟩
  · -- contradictory: the appended state still has escapeState Escaped
    exact absurd ha.1 (by simpa using hb)
  · exact absurd ha.1 (by simpa using hb)
  · exact h1
  · exact h1
  · exact h1

theorem escInv_run (st : JsonTState) (chunks : List (List Char)) (hinv : escInv st) :
    escInv (runJsonChunks st chunks).1 := by
  induction chunks generalizing st with
  | nil => exact hinv
  | cons c cs ih => exact ih _ (escInv_chunk st c hinv)

theorem runJsonChunks_emits_nothing (st : JsonTState) (chunks : List (List Char))
    (h : st.tokens = []) : (runJsonChunks st chunks).2 = [] := by
  induction chunks generalizing st with
  | nil => rfl
  | cons c cs ih =>
      have hc := jsonTransformChunk_emits_nothing st c h
      unfold runJsonChunks
      dsimp only
      rw [hc.1, ih _ hc.2]
      rfl

/-! ## PatternMatcher: the normalized global regex and `String.prototype.replace`

The repository always uses its pattern through a fresh global `RegExp`
(main.ts 517-521: a string search is metacharacter-escaped, so it matches
literally, and the `g` flag is forced).  `String.prototype.replace` on a global
regex follows `RegExp.prototype[Symbol.replace]` (ECMA-262): it *sets
`lastIndex` to 0* before the match loop, advances past each match (one extra
step on an empty match), and the final failing exec resets `lastIndex` to 0.
The matcher below implements this for a literal pattern over any element type
(instantiated at `Char` for JS strings and at `Nat` for code-point arrays). -/

/-- Least index `j ≥ li` at which `pat` occurs in `s` (the regex engine's
search from `lastIndex` for a literal pattern). -/
def findFrom [DecidableEq α] (pat s : List α) (li : Nat) : Option Nat :=
  ((List.range (s.length + 1)).filter
    (fun j => decide (li ≤ j) && pat.isPrefixOf (s.drop j))).head?

/-- `RegExpBuiltinExec` on a global regex: search from `lastIndex`; on a match
set `lastIndex` past it, on failure reset `lastIndex` to 0.  Returns the match
start (if any) and the updated `lastIndex`. -/
def regExpExecG [DecidableEq α] (pat s : List α) (li : Nat) : Option Nat × Nat :=
  match findFrom pat s li with
  | some j => (some j, j + pat.length)
  | none => (none, 0)

/-- The match-collection loop of `RegExp.prototype[Symbol.replace]` for a
global regex, with explicit fuel (`s.length + 1` steps always suffice since
`lastIndex` strictly increases). -/
def collectMatchesG [DecidableEq α] (pat s : List α) : Nat → Nat → List Nat
  | 0, _ => []
  | fuel + 1, li =>
      match regExpExecG pat s li with
      | (none, _) => []
      | (some j, li') =>
          j :: collectMatchesG pat s fuel (if pat.isEmpty then li' + 1 else li')

/-- Splice the replacement over the collected match positions. -/
def buildReplaced [DecidableEq α] (patLen : Nat) (repl s : List α) :
    Nat → List Nat → List α
  | pos, [] => s.drop pos
  | pos, j :: rest =>
      (s.drop pos).take (j - pos) ++ repl ++ buildReplaced patLen repl s (j + patLen) rest

/-- `RegExp.prototype[Symbol.replace]` for a global literal-pattern regex:
because the `g` flag is set, step 8 overwrites the incoming `lastIndex` with 0,
the loop collects every match, and the terminating failed exec leaves
`lastIndex` at 0.  Returns the rewritten string and the regex's `lastIndex`
after the call. -/
def symbolReplaceG [DecidableEq α] (pat repl : List α) (s : List α) (_li : Nat) :
    List α × Nat :=
  (buildReplaced pat.length repl s 0 (collectMatchesG pat s (s.length + 1) 0), 0)

/-- `s.replace(regex, replacement)` for the normalized global regex (the pure
string-to-string view). -/
def listReplaceAll [DecidableEq α] (pat repl s : List α) : List α :=
  (symbolReplaceG pat repl s 0).1

/-- Line 521 of main.ts: `search.flags.includes('g') ? search.flags :
`${search.flags}g`` — the flags of the normalized regex. -/
def normalizeRegexFlags (flags : List Char) : List Char :=
  if 'g' ∈ flags then flags else flags ++ ['g']

/-! ## TextWindower (main.ts 729-902)

The transform receives decoded text, re-encodes it (`encoder.encode(chunk)`)
and scans bytes; we therefore model a chunk directly by its UTF-8 bytes, and
the emitted strings by their code-point lists.  `Intl.Segmenter` is a platform
collaborator, abstracted as a predicate `isWordLike` on code points; the
pattern replacement `processText.replace(regex, replacement)` is abstracted as
`rep` (instantiated with `listReplaceAll` in the concrete theorems). -/

/-- Script classification of the loop (main.ts 789-804): CJK Unified
Ideographs, Hiragana, Katakana → CJK; ASCII letters → Latin; otherwise none. -/
inductive Script where
  | CJK | Latin
  deriving DecidableEq, Repr

def classifyScript (cp : Nat) : Option Script :=
  if (0x4e00 ≤ cp ∧ cp ≤ 0x9fff) ∨ (0x3040 ≤ cp ∧ cp ≤ 0x309f) ∨
      (0x30a0 ≤ cp ∧ cp ≤ 0x30ff) then some .CJK
  else if (0x41 ≤ cp ∧ cp ≤ 0x5a) ∨ (0x61 ≤ cp ∧ cp ≤ 0x7a) then some .Latin
  else none

/-- `DEFAULT_SAFE_BREAK_POINTS` (main.ts 204-230), as code points. -/
def DEFAULT_SAFE_BREAK_POINTS : List Nat :=
  [32, 10, 13, 9, 46, 44, 33, 63, 59, 58, 41, 93, 0x7d,
   0x3002, 0x3001, 0xff0c, 0xff01, 0xff1f, 0xff1b, 0xff1a, 0xff09,
   0x3011, 0x300f, 0x300b]

/-- Result of the byte-scanning loop of `transform` (main.ts 758-839):
the windows enqueued so far, the pending code points, the raw bytes stored
into `utf8Buffer` at a break on an incomplete/invalid-lead sequence, and the
current script. -/
structure TextLoopResult where
  emitted : List (List Nat)
  codePoints : List Nat
  carry : List Nat
  currentScript : Option Script
  deriving DecidableEq, Repr

/-- The `while (i < allBytes.length)` loop of `transform` (main.ts 758-839),
recursing on the remaining bytes.  The extra `fuel` argument makes the
recursion structural (so that concrete runs reduce in the kernel); every
iteration consumes at least one byte, so calling with `fuel = bytes.length`
never exhausts it.  Faithful to the source, including the slip at lines
832-834: `codePoints.length = 0` clears the array *before*
`codePoints.push(...codePoints.slice(lastSafeIndex))` reads it, so the pushed
slice is a slice of the already-empty array and the remainder past the safe
index is dropped. -/
def textLoop (rep : List Nat → List Nat) (isWordLike : Nat → Bool) (maxW : Nat) :
    Nat → List Nat → List Nat → Nat → Option Script → List (List Nat) → TextLoopResult
  | _, [], codePoints, _, currentScript, emitted =>
      ⟨emitted, codePoints, [], currentScript⟩
  | 0, b :: rest, codePoints, _, currentScript, emitted =>
      -- out of fuel: unreachable when fuel ≥ bytes.length
      ⟨emitted, codePoints, b :: rest, currentScript⟩
  | fuel + 1, b :: rest, codePoints, lastSafe, currentScript, emitted =>
      let seqLen := getUtf8SequenceInfo b
      if seqLen = 0 ∨ seqLen > (b :: rest).length then
        -- incomplete sequence or invalid lead: store the remaining bytes and break
        ⟨emitted, codePoints, b :: rest, currentScript⟩
      else
        let charBytes := (b :: rest).take seqLen
        if ¬ isValidUtf8Sequence charBytes then
          -- skip the lead byte and continue
          textLoop rep isWordLike maxW fuel rest codePoints lastSafe currentScript emitted
        else
          match codePointFromUtf8 charBytes with
          | none =>
              textLoop rep isWordLike maxW fuel rest codePoints lastSafe currentScript emitted
          | some cp =>
            if cp > 0x10ffff then
              textLoop rep isWordLike maxW fuel rest codePoints lastSafe currentScript emitted
            else
              let codePoints1 := codePoints ++ [cp]
              let script := classifyScript cp
              let lastSafe1 :=
                if cp ∈ DEFAULT_SAFE_BREAK_POINTS then codePoints1.length
                else if script = some .CJK then
                  if isWordLike cp then
                    if currentScript ≠ some .Latin then codePoints1.length else lastSafe
                  else lastSafe
                else if script = some .Latin ∧ currentScript = some .CJK then
                  codePoints1.length
                else lastSafe
              let currentScript1 := match script with
                | some s => some s
                | none => currentScript
              if codePoints1.length - lastSafe1 > maxW ∧ lastSafe1 > 0 then
                let emitted1 := emitted ++ [rep (codePoints1.take lastSafe1)]
                -- the source's cleared-then-sliced pending array: the slice is
                -- taken from the already-cleared array, i.e. it is empty
                let codePoints2 := ([] : List Nat) ++ ([] : List Nat).drop lastSafe1
                textLoop rep isWordLike maxW fuel ((b :: rest).drop seqLen) codePoints2 0
                  currentScript1 emitted1
              else
                textLoop rep isWordLike maxW fuel ((b :: rest).drop seqLen) codePoints1 lastSafe1
                  currentScript1 emitted

/-- Mutable fields of the `TextTransformer` (main.ts 64-77) that survive
between chunks (`buffer` is initialized but never used by `transform`/`flush`;
`safeBreakPoints` and `segmenter` are fixed at `start`). -/
structure TextTState where
  utf8Buffer : List Nat
  lastScript : Option Script
  maxWindowSize : Nat
  deriving DecidableEq, Repr

/-- The `transform` callback (main.ts 743-859) on one chunk of UTF-8 bytes:
prepend the carried `utf8Buffer`, run the scanning loop, flush *all* pending
code points as a replaced window (main.ts 844-853), and finally re-store
`utf8Buffer` from the now-empty pending array (main.ts 855-858) — which
overwrites the bytes the loop carried, leaving `utf8Buffer` empty. -/
def textTransformChunk (rep : List Nat → List Nat) (isWordLike : Nat → Bool)
    (st : TextTState) (chunkBytes : List Nat) : TextTState × List (List Nat) :=
  let allBytes := st.utf8Buffer ++ chunkBytes
  let r := textLoop rep isWordLike st.maxWindowSize allBytes.length allBytes [] 0 st.lastScript []
  let emitted2 := if r.codePoints ≠ [] then r.emitted ++ [rep r.codePoints] else r.emitted
  -- after the 844-853 block the pending array is empty, so the `remainingBytes`
  -- stored into utf8Buffer at 855-858 are the encoding of the empty string
  let codePointsAfter : List Nat := []
  ({ st with utf8Buffer := (codePointsAfter.map utf8Encode).flatten,
             lastScript := r.currentScript }, emitted2)

/-- The decode loop of `flush` (main.ts 869-889): decode what is left in
`utf8Buffer`, stopping (without carry) on an incomplete sequence, skipping
invalid lead bytes.  `fuel = bytes.length` always suffices (each iteration
consumes at least one byte). -/
def textFlushDecode : Nat → List Nat → List Nat
  | _, [] => []
  | 0, _ :: _ => []
  | fuel + 1, b :: rest =>
      let seqLen := getUtf8SequenceInfo b
      if seqLen = 0 ∨ seqLen > (b :: rest).length then []
      else
        let charBytes := (b :: rest).take seqLen
        if ¬ isValidUtf8Sequence charBytes then textFlushDecode fuel rest
        else
          match codePointFromUtf8 charBytes with
          | none => textFlushDecode fuel rest
          | some cp =>
            if cp > 0x10ffff then textFlushDecode fuel rest
            else cp :: textFlushDecode fuel ((b :: rest).drop seqLen)

/-- The `flush` callback (main.ts 860-901): emit the decoded remainder of
`utf8Buffer`, pattern-replaced, when non-empty. -/
def textFlush (rep : List Nat → List Nat) (st : TextTState) : List (List Nat) :=
  if st.utf8Buffer ≠ [] then
    let cps := textFlushDecode st.utf8Buffer.length st.utf8Buffer
    if cps ≠ [] then [rep cps] else []
  else []

/-- `rewriteTextStream`: run the transform over every chunk in order, then
flush; collect every emitted window in order. -/
def runTextStream (rep : List Nat → List Nat) (isWordLike : Nat → Bool)
    (maxW : Nat) (chunks : List (List Nat)) : List (List Nat) :=
  let step : TextTState × List (List Nat) → List Nat → TextTState × List (List Nat) :=
    fun acc chunk =>
      let r := textTransformChunk rep isWordLike acc.1 chunk
      (r.1, acc.2 ++ r.2)
  let fin := chunks.foldl step
    ({ utf8Buffer := [], lastScript := none, maxWindowSize := maxW }, [])
  fin.2 ++ textFlush rep fin.1

/-! ## DeepReplacer (main.ts 523-555)

JavaScript object graphs can contain cycles, so parsed values are modelled
with an explicit heap: an address (`Nat`) indexes into a list of nodes, and a
value is either a primitive or a reference into the heap.  Property entries
carry the key (string- or symbol-keyed, symbols numbered) and the enumerable
bit, mirroring what `Reflect.ownKeys` + `getOwnPropertyDescriptor` observe.
The `WeakSet` is a `Finset Nat` of addresses, and — like the single shared
`WeakSet` of the source — it threads through sibling recursions.  The mutable
global regex threads through as a state `σ` consumed by `rep` (the model of
`value.replace(regex, replacement)`).  A fresh object/array is allocated by
appending a node to the heap, so an address is fresh iff it is at least the
original heap length.  `unwrapProxy` (main.ts 187-198) is the identity on
plain values, the only values representable here, and is omitted.  The `fuel`
argument makes the recursion structural; heap size + 1 always suffices
(`c6_cycle_safety`). -/

inductive JPrim where
  | str (s : List Char)
  | num (n : Int)
  | bool (b : Bool)
  | null
  deriving DecidableEq, Repr

inductive JVal where
  | prim (p : JPrim)
  | ref (a : Nat)
  deriving DecidableEq, Repr

inductive PKey where
  | str (k : List Char)
  | sym (i : Nat)
  deriving DecidableEq, Repr

structure PropEntry where
  key : PKey
  enumerable : Bool
  value : JVal
  deriving DecidableEq, Repr

inductive HNode where
  | arr (elems : List JVal)
  | obj (props : List PropEntry)
  deriving DecidableEq, Repr

abbrev Heap := List HNode

/-- The `value.map((v, i) => deepReplace(...))` loop of the array branch
(main.ts 541), generic in the element processor `f` so that `deepReplace` can
recurse through it structurally on its fuel.  Heap, seen-set and regex state
thread left to right exactly as the shared mutable objects do in JS. -/
def deepReplaceListWith {σ : Type}
    (f : Heap → Finset Nat → σ → JVal → Option (Heap × Finset Nat × σ × JVal)) :
    Heap → Finset Nat → σ → List JVal → Option (Heap × Finset Nat × σ × List JVal)
  | H, seen, st, [] => some (H, seen, st, [])
  | H, seen, st, v :: vs =>
      match f H seen st v with
      | none => none
      | some (H1, seen1, st1, v1) =>
          match deepReplaceListWith f H1 seen1 st1 vs with
          | none => none
          | some (H2, seen2, st2, vs1) => some (H2, seen2, st2, v1 :: vs1)

/-- The `for (const key of Reflect.ownKeys(value))` loop of the object branch
(main.ts 545-551): symbol keys are skipped (`continue`), non-enumerable
properties are skipped (`continue`), and each remaining value is recursed into
and assigned to the fresh object under the same string key. -/
def deepReplacePropsWith {σ : Type}
    (f : Heap → Finset Nat → σ → JVal → Option (Heap × Finset Nat × σ × JVal)) :
    Heap → Finset Nat → σ → List PropEntry →
      Option (Heap × Finset Nat × σ × List (List Char × JVal))
  | H, seen, st, [] => some (H, seen, st, [])
  | H, seen, st, e :: es =>
      match e.key with
      | .sym _ => deepReplacePropsWith f H seen st es
      | .str k =>
          if e.enumerable then
            match f H seen st e.value with
            | none => none
            | some (H1, seen1, st1, v1) =>
                match deepReplacePropsWith f H1 seen1 st1 es with
                | none => none
                | some (H2, seen2, st2, es1) => some (H2, seen2, st2, (k, v1) :: es1)
          else deepReplacePropsWith f H seen st es

/-- `deepReplace` (main.ts 523-555).  Strings go through `rep` (the shared
mutable regex threads as `st`); non-string primitives pass through; a
reference already in `seen` is returned as the original reference unmodified
(a diagnostic is logged, not an error); otherwise the address is added to
`seen`, the children are processed in order, and a *fresh* node holding the
results is allocated at the end of the heap.  A fresh object's properties are
all own, enumerable and string-keyed, as plain assignment makes them in JS. -/
def deepReplace {σ : Type} (rep : List Char → σ → List Char × σ) :
    Nat → Heap → Finset Nat → σ → JVal → Option (Heap × Finset Nat × σ × JVal)
  | 0, _, _, _, _ => none
  | fuel + 1, H, seen, st, v =>
      match v with
      | .prim (.str s) =>
          let r := rep s st
          some (H, seen, r.2, .prim (.str r.1))
      | .prim p => some (H, seen, st, .prim p)
      | .ref a =>
          if a ∈ seen then some (H, seen, st, .ref a)
          else
            match H.get? a with
            | none => some (H, seen, st, .ref a)   -- unreachable on well-formed heaps
            | some (.arr elems) =>
                match deepReplaceListWith (fun H' s' st' v' => deepReplace rep fuel H' s' st' v')
                    H (insert a seen) st elems with
                | none => none
                | some (H1, seen1, st1, elems1) =>
                    some (H1 ++ [.arr elems1], seen1, st1, .ref H1.length)
            | some (.obj props) =>
                match deepReplacePropsWith (fun H' s' st' v' => deepReplace rep fuel H' s' st' v')
                    H (insert a seen) st props with
                | none => none
                | some (H1, seen1, st1, props1) =>
                    some (H1 ++ [.obj (props1.map fun kv => ⟨.str kv.1, true, kv.2⟩)],
                      seen1, st1, .ref H1.length)

/-- The addresses referenced directly by a value. -/
def valRefs : JVal → List Nat
  | .ref a => [a]
  | .prim _ => []

/-- The addresses referenced directly by a heap node's children. -/
def nodeRefs : HNode → List Nat
  | .arr es => (es.map valRefs).flatten
  | .obj ps => (ps.map fun e => valRefs e.value).flatten

/-- The first `N` nodes of the heap only reference addresses below `N`
(well-formedness of the original heap region). -/
def heapClosedBelow (N : Nat) (H : Heap) : Prop :=
  ∀ i, i < N → ∀ a ∈ nodeRefs (H.getD i (.arr [])), a < N

instance (N : Nat) (H : Heap) : Decidable (heapClosedBelow N H) := by
  unfold heapClosedBelow
  infer_instance

/-- Every address in `l` below the cutoff `n` lies in `seen'` (old addresses
can appear in the output only through a seen-set short circuit). -/
def refsBelowIn (n : Nat) (seen' : Finset Nat) (l : List Nat) : Prop :=
  ∀ b ∈ l, b < n → b ∈ seen'

theorem refsBelowIn_append {n : Nat} {seen' : Finset Nat} {l1 l2 : List Nat}
    (h1 : refsBelowIn n seen' l1) (h2 : refsBelowIn n seen' l2) :
    refsBelowIn n seen' (l1 ++ l2) := by
  intro b hb
  rcases List.mem_append.1 hb with h | h
  · exact h1 b h
  · exact h2 b h

theorem refsBelowIn_mono {n : Nat} {s t : Finset Nat} {l : List Nat}
    (hst : s ⊆ t) (h : refsBelowIn n s l) : refsBelowIn n t l :=
  fun b hb hbn => hst (h b hb hbn)

theorem refsBelowIn_of_le {n m : Nat} {s : Finset Nat} {l : List Nat}
    (hnm : n ≤ m) (h : refsBelowIn m s l) : refsBelowIn n s l :=
  fun b hb hbn => h b hb (lt_of_lt_of_le hbn hnm)

/-- The frame/containment contract of one processing step: the heap only grows
by appended fresh nodes, the seen-set only grows, and any *old* address in the
output value or in the freshly appended nodes is in the final seen-set. -/
def StepOK {σ : Type}
    (f : Heap → Finset Nat → σ → JVal → Option (Heap × Finset Nat × σ × JVal)) : Prop :=
  ∀ H seen st v H' seen' st' v', f H seen st v = some (H', seen', st', v') →
    seen ⊆ seen' ∧
    ∃ ext, H' = H ++ ext ∧
      refsBelowIn H.length seen' (ext.map nodeRefs).flatten ∧
      refsBelowIn H.length seen' (valRefs v')

theorem deepReplaceListWith_stepOK {σ : Type}
    {f : Heap → Finset Nat → σ → JVal → Option (Heap × Finset Nat × σ × JVal)}
    (hf : StepOK f) (vs : List JVal) :
    ∀ H seen st H' seen' st' vs',
      deepReplaceListWith f H seen st vs = some (H', seen', st', vs') →
      seen ⊆ seen' ∧
      ∃ ext, H' = H ++ ext ∧
        refsBelowIn H.length seen' (ext.map nodeRefs).flatten ∧
        refsBelowIn H.length seen' (vs'.map valRefs).flatten := by
  induction vs with
  | nil =>
      intro H seen st H' seen' st' vs' h
      simp only [deepReplaceListWith, Option.some.injEq, Prod.mk.injEq] at h
      obtain ⟨h1, h2, h3, h4⟩ := h
      subst h1; subst h2; subst h3; subst h4
      exact ⟨Finset.Subset.refl _, [], by simp, by intro b hb; simp at hb,
        by intro b hb; simp at hb⟩
  | cons v vs ih =>
      intro H seen st H' seen' st' vs' h
      simp only [deepReplaceListWith] at h
      cases hfv : f H seen st v with
      | none => rw [hfv] at h; exact absurd h (by simp)
      | some r1 =>
          obtain ⟨H1, seen1, st1, v1⟩ := r1
          rw [hfv] at h
          dsimp only at h
          cases hrest : deepReplaceListWith f H1 seen1 st1 vs with
          | none => rw [hrest] at h; exact absurd h (by simp)
          | some r2 =>
              obtain ⟨H2, seen2, st2, vs1⟩ := r2
              rw [hrest] at h
              simp only [Option.some.injEq, Prod.mk.injEq] at h
              obtain ⟨h1, h2, h3, h4⟩ := h
              subst h1; subst h2; subst h3; subst h4
              obtain ⟨hsub1, ext1, hH1, hext1, hv1⟩ := hf H seen st v _ _ _ _ hfv
              obtain ⟨hsub2, ext2, hH2, hext2, hvs1⟩ := ih H1 seen1 st1 _ _ _ _ hrest
              have hlen : H.length ≤ H1.length := by
                rw [hH1]; simp
              refine ⟨hsub1.trans hsub2, ext1 ++ ext2, ?_, ?_, ?_⟩
              · rw [hH2, hH1, List.append_assoc]
              · rw [List.map_append, List.flatten_append]
                exact refsBelowIn_append
                  (refsBelowIn_mono hsub2 hext1)
                  (refsBelowIn_of_le hlen hext2)
              · simp only [List.map_cons, List.flatten_cons]
                exact refsBelowIn_append
                  (refsBelowIn_mono hsub2 hv1)
                  (refsBelowIn_of_le hlen hvs1)

theorem deepReplacePropsWith_stepOK {σ : Type}
    {f : Heap → Finset Nat → σ → JVal → Option (Heap × Finset Nat × σ × JVal)}
    (hf : StepOK f) (es : List PropEntry) :
    ∀ H seen st H' seen' st' es',
      deepReplacePropsWith f H seen st es = some (H', seen', st', es') →
      seen ⊆ seen' ∧
      ∃ ext, H' = H ++ ext ∧
        refsBelowIn H.length seen' (ext.map nodeRefs).flatten ∧
        refsBelowIn H.length seen' (es'.map fun kv => valRefs kv.2).flatten := by
  induction es with
  | nil =>
      intro H seen st H' seen' st' es' h
      simp only [deepReplacePropsWith, Option.some.injEq, Prod.mk.injEq] at h
      obtain ⟨h1, h2, h3, h4⟩ := h
      subst h1; subst h2; subst h3; subst h4
      exact ⟨Finset.Subset.refl _, [], by simp, by intro b hb; simp at hb,
        by intro b hb; simp at hb⟩
  | cons e es ih =>
      intro H seen st H' seen' st' es' h
      simp only [deepReplacePropsWith] at h
      cases hk : e.key with
      | sym i =>
          rw [hk] at h
          dsimp only at h
          exact ih H seen st _ _ _ _ h
      | str k =>
          rw [hk] at h
          dsimp only at h
          by_cases he : e.enumerable
          · rw [if_pos he] at h
            cases hfv : f H seen st e.value with
            | none => rw [hfv] at h; exact absurd h (by simp)
            | some r1 =>
                obtain ⟨H1, seen1, st1, v1⟩ := r1
                rw [hfv] at h
                dsimp only at h
                cases hrest : deepReplacePropsWith f H1 seen1 st1 es with
                | none => rw [hrest] at h; exact absurd h (by simp)
                | some r2 =>
                    obtain ⟨H2, seen2, st2, es1⟩ := r2
                    rw [hrest] at h
                    simp only [Option.some.injEq, Prod.mk.injEq] at h
                    obtain ⟨h1, h2, h3, h4⟩ := h
                    subst h1; subst h2; subst h3; subst h4
                    obtain ⟨hsub1, ext1, hH1, hext1, hv1⟩ := hf H seen st e.value _ _ _ _ hfv
                    obtain ⟨hsub2, ext2, hH2, hext2, hes1⟩ := ih H1 seen1 st1 _ _ _ _ hrest
                    have hlen : H.length ≤ H1.length := by
                      rw [hH1]; simp
                    refine ⟨hsub1.trans hsub2, ext1 ++ ext2, ?_, ?_, ?_⟩
                    · rw [hH2, hH1, List.append_assoc]
                    · rw [List.map_append, List.flatten_append]
                      exact refsBelowIn_append
                        (refsBelowIn_mono hsub2 hext1)
                        (refsBelowIn_of_le hlen hext2)
                    · simp only [List.map_cons, List.flatten_cons]
                      exact refsBelowIn_append
                        (refsBelowIn_mono hsub2 hv1)
                        (refsBelowIn_of_le hlen hes1)
          · rw [if_neg he] at h
            exact ih H seen st _ _ _ _ h

theorem deepReplace_stepOK {σ : Type} (rep : List Char → σ → List Char × σ) :
    ∀ fuel, StepOK (fun H seen st v => deepReplace rep fuel H seen st v) := by
  intro fuel
  induction fuel with
  | zero =>
      intro H seen st v H' seen' st' v' h
      exact absurd h (by simp [deepReplace])
  | succ fuel ih =>
      intro H seen st v H' seen' st' v' h
      match v with
      | .prim (.str s) =>
          simp only [deepReplace, Option.some.injEq, Prod.mk.injEq] at h
          obtain ⟨h1, h2, h3, h4⟩ := h
          subst h1; subst h2; subst h3; subst h4
          exact ⟨Finset.Subset.refl _, [], by simp, by intro b hb; simp at hb,
            by intro b hb; simp [valRefs] at hb⟩
      | .prim (.num n) =>
          simp only [deepReplace, Option.some.injEq, Prod.mk.injEq] at h
          obtain ⟨h1, h2, h3, h4⟩ := h
          subst h1; subst h2; subst h3; subst h4
          exact ⟨Finset.Subset.refl _, [], by simp, by intro b hb; simp at hb,
            by intro b hb; simp [valRefs] at hb⟩
      | .prim .null =>
          simp only [deepReplace, Option.some.injEq, Prod.mk.injEq] at h
          obtain ⟨h1, h2, h3, h4⟩ := h
          subst h1; subst h2; subst h3; subst h4
          exact ⟨Finset.Subset.refl _, [], by simp, by intro b hb; simp at hb,
            by intro b hb; simp [valRefs] at hb⟩
      | .prim (.bool b0) =>
          simp only [deepReplace, Option.some.injEq, Prod.mk.injEq] at h
          obtain ⟨h1, h2, h3, h4⟩ := h
          subst h1; subst h2; subst h3; subst h4
          exact ⟨Finset.Subset.refl _, [], by simp, by intro b hb; simp at hb,
            by intro b hb; simp [valRefs] at hb⟩
      | .ref a =>
          simp only [deepReplace] at h
          by_cases hseen : a ∈ seen
          · rw [if_pos hseen] at h
            simp only [Option.some.injEq, Prod.mk.injEq] at h
            obtain ⟨h1, h2, h3, h4⟩ := h
            subst h1; subst h2; subst h3; subst h4
            refine ⟨Finset.Subset.refl _, [], by simp, by intro b hb; simp at hb, ?_⟩
            intro b hb _
            simp [valRefs] at hb
            subst hb
            exact hseen
          · rw [if_neg hseen] at h
            cases hget : H.get? a with
            | none =>
                rw [hget] at h
                simp only [Option.some.injEq, Prod.mk.injEq] at h
                obtain ⟨h1, h2, h3, h4⟩ := h
                subst h1; subst h2; subst h3; subst h4
                refine ⟨Finset.Subset.refl _, [], by simp, by intro b hb; simp at hb, ?_⟩
                intro b hb hblt
                simp [valRefs] at hb
                subst hb
                exact absurd hget (by
                  simp only [ne_eq, List.get?_eq_none]
                  omega)
            | some node =>
                rw [hget] at h
                cases node with
                | arr elems =>
                    dsimp only at h
                    cases hlist : deepReplaceListWith
                        (fun H' s' st' v' => deepReplace rep fuel H' s' st' v')
                        H (insert a seen) st elems with
                    | none => rw [hlist] at h; exact absurd h (by simp)
                    | some r1 =>
                        obtain ⟨H1, seen1, st1, elems1⟩ := r1
                        rw [hlist] at h
                        dsimp only at h
                        simp only [Option.some.injEq, Prod.mk.injEq] at h
                        obtain ⟨h1, h2, h3, h4⟩ := h
                        subst h1; subst h2; subst h3; subst h4
                        obtain ⟨hsub, ext, hH1, hext, helems⟩ :=
                          deepReplaceListWith_stepOK ih elems H (insert a seen) st _ _ _ _ hlist
                        refine ⟨(Finset.subset_insert a seen).trans hsub,
                          ext ++ [.arr elems1], ?_, ?_, ?_⟩
                        · rw [hH1, List.append_assoc]
                        · rw [List.map_append, List.flatten_append]
                          refine refsBelowIn_append hext ?_
                          simpa [nodeRefs] using helems
                        · intro b hb hblt
                          simp [valRefs] at hb
                          subst hb
                          rw [hH1] at hblt
                          simp at hblt
                | obj props =>
                    dsimp only at h
                    cases hprops : deepReplacePropsWith
                        (fun H' s' st' v' => deepReplace rep fuel H' s' st' v')
                        H (insert a seen) st props with
                    | none => rw [hprops] at h; exact absurd h (by simp)
                    | some r1 =>
                        obtain ⟨H1, seen1, st1, props1⟩ := r1
                        rw [hprops] at h
                        dsimp only at h
                        simp only [Option.some.injEq, Prod.mk.injEq] at h
                        obtain ⟨h1, h2, h3, h4⟩ := h
                        subst h1; subst h2; subst h3; subst h4
                        obtain ⟨hsub, ext, hH1, hext, hprops1⟩ :=
                          deepReplacePropsWith_stepOK ih props H (insert a seen) st _ _ _ _ hprops
                        refine ⟨(Finset.subset_insert a seen).trans hsub,
                          ext ++ [.obj (props1.map fun kv => ⟨.str kv.1, true, kv.2⟩)], ?_, ?_, ?_⟩
                        · rw [hH1, List.append_assoc]
                        · rw [List.map_append, List.flatten_append]
                          refine refsBelowIn_append hext ?_
                          simpa [nodeRefs, List.map_map, Function.comp] using hprops1
                        · intro b hb hblt
                          simp [valRefs] at hb
                          subst hb
                          rw [hH1] at hblt
                          simp at hblt

theorem heapClosedBelow_append {N : Nat} {H : Heap} (ext : List HNode)
    (hN : N ≤ H.length) (h : heapClosedBelow N H) : heapClosedBelow N (H ++ ext) := by
  intro i hi a ha
  rw [List.getD_append _ _ _ _ (lt_of_lt_of_le hi hN)] at ha
  exact h i hi a ha

theorem sdiff_card_lt_of_subset {s t : Finset Nat} {N k : Nat} (hsub : s ⊆ t)
    (h : (Finset.range N \ s).card < k) : (Finset.range N \ t).card < k :=
  lt_of_le_of_lt
    (Finset.card_le_card (Finset.sdiff_subset_sdiff (Finset.Subset.refl _) hsub)) h

theorem deepReplaceListWith_total {σ : Type}
    {f : Heap → Finset Nat → σ → JVal → Option (Heap × Finset Nat × σ × JVal)}
    {N fuel : Nat} (hOK : StepOK f)
    (hfT : ∀ H seen st v, N ≤ H.length → heapClosedBelow N H →
      (∀ b ∈ valRefs v, b < N) → (Finset.range N \ seen).card < fuel →
      f H seen st v ≠ none) :
    ∀ vs H seen st, N ≤ H.length → heapClosedBelow N H →
      (∀ v ∈ vs, ∀ b ∈ valRefs v, b < N) → (Finset.range N \ seen).card < fuel →
      deepReplaceListWith f H seen st vs ≠ none := by
  intro vs
  induction vs with
  | nil => intro H seen st _ _ _ _; simp [deepReplaceListWith]
  | cons v vs ih =>
      intro H seen st hN hclosed hrefs hcard
      have hv := hfT H seen st v hN hclosed (hrefs v (by simp)) hcard
      simp only [deepReplaceListWith]
      cases hfv : f H seen st v with
      | none => exact absurd hfv hv
      | some r1 =>
          obtain ⟨H1, seen1, st1, v1⟩ := r1
          dsimp only
          obtain ⟨hsub, ext, hH1, -, -⟩ := hOK H seen st v _ _ _ _ hfv
          have hrest := ih H1 seen1 st1
            (by rw [hH1]; simp; omega)
            (by rw [hH1]; exact heapClosedBelow_append ext hN hclosed)
            (fun v' hv' => hrefs v' (by simp [hv']))
            (sdiff_card_lt_of_subset hsub hcard)
          cases hr : deepReplaceListWith f H1 seen1 st1 vs with
          | none => exact absurd hr hrest
          | some r2 =>
              obtain ⟨H2, seen2, st2, vs1⟩ := r2
              simp

theorem deepReplacePropsWith_total {σ : Type}
    {f : Heap → Finset Nat → σ → JVal → Option (Heap × Finset Nat × σ × JVal)}
    {N fuel : Nat} (hOK : StepOK f)
    (hfT : ∀ H seen st v, N ≤ H.length → heapClosedBelow N H →
      (∀ b ∈ valRefs v, b < N) → (Finset.range N \ seen).card < fuel →
      f H seen st v ≠ none) :
    ∀ es H seen st, N ≤ H.length → heapClosedBelow N H →
      (∀ e ∈ es, ∀ b ∈ valRefs (PropEntry.value e), b < N) →
      (Finset.range N \ seen).card < fuel →
      deepReplacePropsWith f H seen st es ≠ none := by
  intro es
  induction es with
  | nil => intro H seen st _ _ _ _; simp [deepReplacePropsWith]
  | cons e es ih =>
      intro H seen st hN hclosed hrefs hcard
      simp only [deepReplacePropsWith]
      cases hk : e.key with
      | sym i =>
          dsimp only
          exact ih H seen st hN hclosed (fun e' he' => hrefs e' (by simp [he'])) hcard
      | str k =>
          dsimp only
          by_cases he : e.enumerable
          · rw [if_pos he]
            have hv := hfT H seen st e.value hN hclosed (hrefs e (by simp)) hcard
            cases hfv : f H seen st e.value with
            | none => exact absurd hfv hv
            | some r1 =>
                obtain ⟨H1, seen1, st1, v1⟩ := r1
                dsimp only
                obtain ⟨hsub, ext, hH1, -, -⟩ := hOK H seen st e.value _ _ _ _ hfv
                have hrest := ih H1 seen1 st1
                  (by rw [hH1]; simp; omega)
                  (by rw [hH1]; exact heapClosedBelow_append ext hN hclosed)
                  (fun e' he' => hrefs e' (by simp [he']))
                  (sdiff_card_lt_of_subset hsub hcard)
                cases hr : deepReplacePropsWith f H1 seen1 st1 es with
                | none => exact absurd hr hrest
                | some r2 =>
                    obtain ⟨H2, seen2, st2, es1⟩ := r2
                    simp
          · rw [if_neg he]
            exact ih H seen st hN hclosed (fun e' he' => hrefs e' (by simp [he'])) hcard

theorem deepReplace_total {σ : Type} (rep : List Char → σ → List Char × σ) :
    ∀ fuel N H seen st v, N ≤ H.length → heapClosedBelow N H →
      (∀ b ∈ valRefs v, b < N) → (Finset.range N \ seen).card < fuel →
      deepReplace rep fuel H seen st v ≠ none := by
  intro fuel
  induction fuel with
  | zero => intro N H seen st v _ _ _ hcard; omega
  | succ fuel ih =>
      intro N H seen st v hN hclosed hrefs hcard
      match v with
      | .prim p => cases p <;> simp [deepReplace]
      | .ref a =>
          by_cases hseen : a ∈ seen
          · simp [deepReplace, hseen]
          · have haN : a < N := hrefs a (by simp [valRefs])
            have hlt : a < H.length := lt_of_lt_of_le haN hN
            have hget : H.get? a = some (H.getD a (.arr [])) := by
              rw [List.get?_eq_getElem?, List.getElem?_eq_getElem hlt,
                List.getD_eq_getElem _ _ hlt]
            have hchild := hclosed a haN
            have hcard1 : (Finset.range N \ insert a seen).card < fuel := by
              have hins : Finset.range N \ insert a seen = (Finset.range N \ seen).erase a := by
                ext x
                simp only [Finset.mem_sdiff, Finset.mem_insert, Finset.mem_erase,
                  Finset.mem_range]
                tauto
              have hmem : a ∈ Finset.range N \ seen := by
                simp [Finset.mem_sdiff, Finset.mem_range, haN, hseen]
              rw [hins, Finset.card_erase_of_mem hmem]
              have hpos : 0 < (Finset.range N \ seen).card :=
                Finset.card_pos.mpr ⟨a, hmem⟩
              omega
            simp only [deepReplace, if_neg hseen]
            rw [hget]
            cases hnode : H.getD a (.arr []) with
            | arr elems =>
                dsimp only
                rw [hnode] at hchild
                have htot := deepReplaceListWith_total (deepReplace_stepOK rep fuel)
                  (fun H' s' st' v' => ih N H' s' st' v') elems H (insert a seen) st
                  hN hclosed
                  (fun v' hv' b hb => hchild b (by
                    simp only [nodeRefs, List.mem_flatten]
                    exact ⟨valRefs v', List.mem_map_of_mem _ hv', hb⟩))
                  hcard1
                cases hr : deepReplaceListWith
                    (fun H' s' st' v' => deepReplace rep fuel H' s' st' v')
                    H (insert a seen) st elems with
                | none => exact absurd hr htot
                | some r1 =>
                    obtain ⟨H1, seen1, st1, elems1⟩ := r1
                    simp
            | obj props =>
                dsimp only
                rw [hnode] at hchild
                have htot := deepReplacePropsWith_total (deepReplace_stepOK rep fuel)
                  (fun H' s' st' v' => ih N H' s' st' v') props H (insert a seen) st
                  hN hclosed
                  (fun e' he' b hb => hchild b (by
                    simp only [nodeRefs, List.mem_flatten]
                    exact ⟨valRefs e'.value, List.mem_map_of_mem _ he', hb⟩))
                  hcard1
                cases hr : deepReplacePropsWith
                    (fun H' s' st' v' => deepReplace rep fuel H' s' st' v')
                    H (insert a seen) st props with
                | none => exact absurd hr htot
                | some r1 =>
                    obtain ⟨H1, seen1, st1, props1⟩ := r1
                    simp

/-- A property entry that the object branch visits: own (always, in this
model), enumerable, and string-keyed. -/
def isVisitedProp (e : PropEntry) : Bool :=
  e.enumerable && (match e.key with | .str _ => true | .sym _ => false)

def propKeyStr (e : PropEntry) : List Char :=
  match e.key with
  | .str k => k
  | .sym _ => []

def nodeProps : HNode → List PropEntry
  | .obj ps => ps
  | .arr _ => []

/-- The keys of the object produced by the property loop are exactly the keys
of the own, enumerable, string-keyed entries of the input, in order. -/
theorem deepReplacePropsWith_keys {σ : Type}
    {f : Heap → Finset Nat → σ → JVal → Option (Heap × Finset Nat × σ × JVal)} :
    ∀ es H seen st H' seen' st' out,
      deepReplacePropsWith f H seen st es = some (H', seen', st', out) →
      out.map Prod.fst = (es.filter isVisitedProp).map propKeyStr := by
  intro es
  induction es with
  | nil =>
      intro H seen st H' seen' st' out h
      simp only [deepReplacePropsWith, Option.some.injEq, Prod.mk.injEq] at h
      obtain ⟨-, -, -, h4⟩ := h
      subst h4
      simp
  | cons e es ih =>
      intro H seen st H' seen' st' out h
      simp only [deepReplacePropsWith] at h
      cases hk : e.key with
      | sym i =>
          rw [hk] at h
          dsimp only at h
          rw [ih H seen st _ _ _ _ h]
          have : isVisitedProp e = false := by simp [isVisitedProp, hk]
          simp [List.filter_cons, this]
      | str k =>
          rw [hk] at h
          dsimp only at h
          by_cases he : e.enumerable
          · rw [if_pos he] at h
            cases hfv : f H seen st e.value with
            | none => rw [hfv] at h; exact absurd h (by simp)
            | some r1 =>
                obtain ⟨H1, seen1, st1, v1⟩ := r1
                rw [hfv] at h
                dsimp only at h
                cases hrest : deepReplacePropsWith f H1 seen1 st1 es with
                | none => rw [hrest] at h; exact absurd h (by simp)
                | some r2 =>
                    obtain ⟨H2, seen2, st2, es1⟩ := r2
                    rw [hrest] at h
                    simp only [Option.some.injEq, Prod.mk.injEq] at h
                    obtain ⟨-, -, -, h4⟩ := h
                    subst h4
                    have hv : isVisitedProp e = true := by simp [isVisitedProp, hk, he]
                    simp only [List.map_cons, List.filter_cons, hv, if_true]
                    rw [ih H1 seen1 st1 _ _ _ _ hrest]
                    simp [propKeyStr, hk]
          · rw [if_neg he] at h
            rw [ih H seen st _ _ _ _ h]
            have : isVisitedProp e = false := by simp [isVisitedProp, he]
            simp [List.filter_cons, this]

/-- The model of `value.replace(regex, replacement)` with search `"orig"` and
replacement `"repl"`, regex state collapsed to `Unit` (used for the concrete
deep-replacement examples). -/
def repOrig : List Char → Unit → List Char × Unit :=
  fun s _ => (listReplaceAll "orig".toList "repl".toList s, ())

/-- The self-referential object `a` with `a.self === a`: one heap node whose
`self` property points back to its own address. -/
def cyclicHeap : Heap := [.obj [⟨.str "self".toList, true, .ref 0⟩]]

/-- An object with an own enumerable string-keyed property `a`, a
non-enumerable property `hidden`, and a symbol-keyed property. -/
def c7Heap : Heap :=
  [.obj [⟨.str "a".toList, true, .prim (.str "xorigy".toList)⟩,
         ⟨.str "hidden".toList, false, .prim (.str "secret".toList)⟩,
         ⟨.sym 0, true, .prim (.str "symval".toList)⟩]]

/-- What `deepReplace` produces on `c7Heap`: the fresh object holds only the
rewritten `a` property. -/
def c7HeapOut : Heap :=
  c7Heap ++ [.obj [⟨.str "a".toList, true, .prim (.str "xreply".toList)⟩]]

/-- Two arrays sharing one child (an acyclic diamond), used as the concrete
input of the C9 witness. -/
def diamondHeap : Heap :=
  [.arr [.ref 1, .ref 1], .arr [.prim (.str "orig".toList)]]

/-! ### State-independence of the traversal in the regex's `lastIndex` -/

/-- Two regex states that are either equal (after any replacement call has
reset `lastIndex`) or the two initial states of two runs being compared. -/
def pairRelated {σ : Type} (a b x y : σ) : Prop := x = y ∨ (x = a ∧ y = b)

/-- A step whose two runs from `pairRelated` states produce identical heaps,
seen-sets and values, and `pairRelated` output states. -/
def RelStep {σ : Type}
    (f : Heap → Finset Nat → σ → JVal → Option (Heap × Finset Nat × σ × JVal))
    (a b : σ) : Prop :=
  ∀ H seen x y v, pairRelated a b x y →
    (f H seen x v = none ∧ f H seen y v = none) ∨
    ∃ H' seen' v' sx sy, f H seen x v = some (H', seen', sx, v') ∧
      f H seen y v = some (H', seen', sy, v') ∧ pairRelated a b sx sy

theorem deepReplaceListWith_rel {σ : Type}
    {f : Heap → Finset Nat → σ → JVal → Option (Heap × Finset Nat × σ × JVal)}
    {a b : σ} (hf : RelStep f a b) :
    ∀ vs H seen x y, pairRelated a b x y →
      (deepReplaceListWith f H seen x vs = none ∧
        deepReplaceListWith f H seen y vs = none) ∨
      ∃ H' seen' vs' sx sy,
        deepReplaceListWith f H seen x vs = some (H', seen', sx, vs') ∧
        deepReplaceListWith f H seen y vs = some (H', seen', sy, vs') ∧
        pairRelated a b sx sy := by
  intro vs
  induction vs with
  | nil =>
      intro H seen x y hxy
      exact Or.inr ⟨H, seen, [], x, y, rfl, rfl, hxy⟩
  | cons v vs ih =>
      intro H seen x y hxy
      rcases hf H seen x y v hxy with ⟨hx, hy⟩ | ⟨H1, seen1, v1, sx1, sy1, hx, hy, hrel1⟩
      · left
        constructor <;> simp only [deepReplaceListWith]
        · rw [hx]
        · rw [hy]
      · rcases ih H1 seen1 sx1 sy1 hrel1 with ⟨hrx, hry⟩ |
            ⟨H2, seen2, vs2, sx2, sy2, hrx, hry, hrel2⟩
        · left
          constructor <;> simp only [deepReplaceListWith]
          · rw [hx]
            dsimp only
            rw [hrx]
          · rw [hy]
            dsimp only
            rw [hry]
        · right
          refine ⟨H2, seen2, v1 :: vs2, sx2, sy2, ?_, ?_, hrel2⟩
          · simp only [deepReplaceListWith]
            rw [hx]
            dsimp only
            rw [hrx]
          · simp only [deepReplaceListWith]
            rw [hy]
            dsimp only
            rw [hry]

theorem deepReplacePropsWith_rel {σ : Type}
    {f : Heap → Finset Nat → σ → JVal → Option (Heap × Finset Nat × σ × JVal)}
    {a b : σ} (hf : RelStep f a b) :
    ∀ es H seen x y, pairRelated a b x y →
      (deepReplacePropsWith f H seen x es = none ∧
        deepReplacePropsWith f H seen y es = none) ∨
      ∃ H' seen' es' sx sy,
        deepReplacePropsWith f H seen x es = some (H', seen', sx, es') ∧
        deepReplacePropsWith f H seen y es = some (H', seen', sy, es') ∧
        pairRelated a b sx sy := by
  intro es
  induction es with
  | nil =>
      intro H seen x y hxy
      exact Or.inr ⟨H, seen, [], x, y, rfl, rfl, hxy⟩
  | cons e es ih =>
      intro H seen x y hxy
      cases hk : e.key with
      | sym i =>
          rcases ih H seen x y hxy with ⟨hrx, hry⟩ |
              ⟨H2, seen2, es2, sx2, sy2, hrx, hry, hrel2⟩
          · left
            constructor <;> simp only [deepReplacePropsWith, hk] <;> assumption
          · right
            refine ⟨H2, seen2, es2, sx2, sy2, ?_, ?_, hrel2⟩ <;>
              simp only [deepReplacePropsWith, hk] <;> assumption
      | str k =>
          by_cases he : e.enumerable
          · rcases hf H seen x y e.value hxy with ⟨hx, hy⟩ |
                ⟨H1, seen1, v1, sx1, sy1, hx, hy, hrel1⟩
            · left
              constructor <;> simp only [deepReplacePropsWith, hk, if_pos he]
              · rw [hx]
              · rw [hy]
            · rcases ih H1 seen1 sx1 sy1 hrel1 with ⟨hrx, hry⟩ |
                  ⟨H2, seen2, es2, sx2, sy2, hrx, hry, hrel2⟩
              · left
                constructor <;> simp only [deepReplacePropsWith, hk, if_pos he]
                · rw [hx]
                  dsimp only
                  rw [hrx]
                · rw [hy]
                  dsimp only
                  rw [hry]
              · right
                refine ⟨H2, seen2, (k, v1) :: es2, sx2, sy2, ?_, ?_, hrel2⟩
                · simp only [deepReplacePropsWith, hk, if_pos he]
                  rw [hx]
                  dsimp only
                  rw [hrx]
                · simp only [deepReplacePropsWith, hk, if_pos he]
                  rw [hy]
                  dsimp only
                  rw [hry]
          · rcases ih H seen x y hxy with ⟨hrx, hry⟩ |
                ⟨H2, seen2, es2, sx2, sy2, hrx, hry, hrel2⟩
            · left
              constructor <;> simp only [deepReplacePropsWith, hk, if_neg he] <;> assumption
            · right
              refine ⟨H2, seen2, es2, sx2, sy2, ?_, ?_, hrel2⟩ <;>
                simp only [deepReplacePropsWith, hk, if_neg he] <;> assumption

/-- When the per-string replacement ignores the incoming regex state (as the
ECMA global replace does, resetting `lastIndex`), two `deepReplace` runs from
any two initial regex states produce identical heaps, seen-sets and values. -/
theorem deepReplace_rel {σ : Type} (rep : List Char → σ → List Char × σ)
    (hrep : ∀ s x y, rep s x = rep s y) (a b : σ) :
    ∀ fuel, RelStep (fun H seen st v => deepReplace rep fuel H seen st v) a b := by
  intro fuel
  induction fuel with
  | zero =>
      intro H seen x y v _
      exact Or.inl ⟨by simp [deepReplace], by simp [deepReplace]⟩
  | succ fuel ih =>
      intro H seen x y v hxy
      match v with
      | .prim (.str s) =>
          right
          refine ⟨H, seen, .prim (.str (rep s x).1), (rep s x).2, (rep s y).2,
            by simp [deepReplace], ?_, ?_⟩
          · have := hrep s x y
            simp only [deepReplace]
            rw [← this]
          · left
            rw [hrep s x y]
      | .prim (.num n) => exact Or.inr ⟨H, seen, .prim (.num n), x, y,
          by simp [deepReplace], by simp [deepReplace], hxy⟩
      | .prim (.bool b0) => exact Or.inr ⟨H, seen, .prim (.bool b0), x, y,
          by simp [deepReplace], by simp [deepReplace], hxy⟩
      | .prim .null => exact Or.inr ⟨H, seen, .prim .null, x, y,
          by simp [deepReplace], by simp [deepReplace], hxy⟩
      | .ref a0 =>
          by_cases hseen : a0 ∈ seen
          · exact Or.inr ⟨H, seen, .ref a0, x, y, by simp [deepReplace, hseen],
              by simp [deepReplace, hseen], hxy⟩
          · cases hget : H.get? a0 with
            | none =>
                exact Or.inr ⟨H, seen, .ref a0, x, y,
                  by simp only [deepReplace, if_neg hseen]; rw [hget],
                  by simp only [deepReplace, if_neg hseen]; rw [hget], hxy⟩
            | some node =>
                cases node with
                | arr elems =>
                    rcases deepReplaceListWith_rel ih elems H (insert a0 seen) x y hxy with
                        ⟨hrx, hry⟩ | ⟨H1, seen1, vs1, sx1, sy1, hrx, hry, hrel1⟩
                    · left
                      constructor <;> simp only [deepReplace, if_neg hseen] <;> rw [hget] <;>
                        dsimp only
                      · rw [hrx]
                      · rw [hry]
                    · right
                      refine ⟨H1 ++ [.arr vs1], seen1, .ref H1.length, sx1, sy1, ?_, ?_, hrel1⟩
                      · simp only [deepReplace, if_neg hseen]
                        rw [hget]
                        dsimp only
                        rw [hrx]
                      · simp only [deepReplace, if_neg hseen]
                        rw [hget]
                        dsimp only
                        rw [hry]
                | obj props =>
                    rcases deepReplacePropsWith_rel ih props H (insert a0 seen) x y hxy with
                        ⟨hrx, hry⟩ | ⟨H1, seen1, es1, sx1, sy1, hrx, hry, hrel1⟩
                    · left
                      constructor <;> simp only [deepReplace, if_neg hseen] <;> rw [hget] <;>
                        dsimp only
                      · rw [hrx]
                      · rw [hry]
                    · right
                      refine ⟨H1 ++ [.obj (es1.map fun kv => ⟨.str kv.1, true, kv.2⟩)],
                        seen1, .ref H1.length, sx1, sy1, ?_, ?_, hrel1⟩
                      · simp only [deepReplace, if_neg hseen]
                        rw [hget]
                        dsimp only
                        rw [hrx]
                      · simp only [deepReplace, if_neg hseen]
                        rw [hget]
                        dsimp only
                        rw [hry]

/-! ## MultipartSplitter (main.ts 623-672)

Strings are `List Char`.  `JSON.parse` and `JSON.stringify` are platform
collaborators: `parseJson` abstractly returns the parse tree as a heap plus
root value (or `none` when parsing throws), and `stringifyJson` serializes a
heap value.  The part bodies are dispatched to the same `deepReplace` as the
buffered JSON path, with a fresh seen-set per part (`new WeakSet()`), the
shared regex state threading through the parts in order. -/

/-- `'\r\n\r\n'`, the blank-line separator between a part's header block and
its body. -/
def crlf2 : List Char := ['\r', '\n', '\r', '\n']

/-- The ASCII white space recognized by `String.prototype.trim` and by the
regex class `\s` (the Unicode additions are irrelevant to the headers
handled here). -/
def jsWhitespace : List Char := [' ', '\t', '\n', '\r', '\x0b', '\x0c']

/-- `String.prototype.trim`. -/
def jsTrim (s : List Char) : List Char :=
  ((s.dropWhile (fun c => jsWhitespace.contains c)).reverse.dropWhile
    (fun c => jsWhitespace.contains c)).reverse

/-- `String.prototype.split(sep)` for a non-empty separator: split at each
leftmost non-overlapping occurrence.  `fuel = s.length + 1` always suffices. -/
def splitOnSepF [DecidableEq α] (sep : List α) : Nat → List α → List (List α)
  | 0, s => [s]
  | fuel + 1, s =>
      match findFrom sep s 0 with
      | none => [s]
      | some j => s.take j :: splitOnSepF sep fuel (s.drop (j + sep.length))

def splitOnSep [DecidableEq α] (sep s : List α) : List (List α) :=
  splitOnSepF sep (s.length + 1) s

/-- The literal `content-type:` the regex `/content-type:\s*([^;\r\n]+)/i`
looks for. -/
def ctLiteral : List Char := "content-type:".toList

/-- One attempt of that regex at start position `i`: the literal matches
case-insensitively, `\s*` then eats white space, and `[^;\r\n]+` captures
greedily — at least one character, else the attempt at this position fails. -/
def matchContentTypeAt (headers : List Char) (i : Nat) : Option (List Char) :=
  let t := headers.drop i
  if ctLiteral.isPrefixOf (t.map Char.toLower) then
    let afterWs := (t.drop ctLiteral.length).dropWhile (fun c => jsWhitespace.contains c)
    let captured := afterWs.takeWhile (fun c => ¬ (c = ';' ∨ c = '\r' ∨ c = '\n'))
    if captured = [] then none else some captured
  else none

/-- `/content-type:\s*([^;\r\n]+)/i.exec(headers)` — the capture of the
leftmost successful attempt. -/
def matchContentType (headers : List Char) : Option (List Char) :=
  ((List.range (headers.length + 1)).filterMap (matchContentTypeAt headers)).head?

/-- `String.prototype.includes(needle)`: `needle` occurs contiguously in `s`. -/
def containsSub [DecidableEq α] (needle s : List α) : Bool :=
  (List.range (s.length + 1)).any (fun i => needle.isPrefixOf (s.drop i))

/-- `Array.prototype.map` over the parts with the shared mutable regex
threading through in order. -/
def mapWithState {σ α β : Type} (f : σ → α → β × σ) : σ → List α → List β × σ
  | st, [] => ([], st)
  | st, x :: xs =>
      let r := f st x
      let rest := mapWithState f r.2 xs
      (r.1 :: rest.1, rest.2)

/-- The per-part processing of the multipart branch (main.ts 628-657).
Empty/terminal parts pass through; the part splits into header block and body
at the blank lines; a declared content type containing `json` goes through
`JSON.parse` + `deepReplace` + `JSON.stringify` (with plain replacement of the
body as fallback when parsing throws); `text`/`html`/`xml` get plain
replacement of the body; anything else (or no content-type match) is
reassembled as `headers + '\r\n\r\n' + body`. -/
def processPart {σ : Type} (parseJson : List Char → Option (Heap × JVal))
    (stringifyJson : Heap → JVal → List Char) (rep : List Char → σ → List Char × σ)
    (st : σ) (part : List Char) : List Char × σ :=
  if jsTrim part = [] ∨ jsTrim part = ['-', '-'] then (part, st)
  else
    let pieces := splitOnSep crlf2 part
    let headers := pieces.headI
    let body := List.intercalate crlf2 pieces.tail
    match matchContentType headers with
    | some ct0 =>
        let partContentType := ct0.map Char.toLower
        if containsSub "json".toList partContentType then
          match parseJson body with
          | some pj =>
              -- fuel heap-size + 1 suffices for the tree heaps JSON.parse
              -- yields (c6_cycle_safety); the none branch is unreachable then
              match deepReplace rep (pj.1.length + 1) pj.1 ∅ st pj.2 with
              | some r => (headers ++ crlf2 ++ stringifyJson r.1 r.2.2.2, r.2.2.1)
              | none => (headers ++ crlf2 ++ stringifyJson pj.1 pj.2, st)
          | none =>
              let r := rep body st
              (headers ++ crlf2 ++ r.1, r.2)
        else if containsSub "text".toList partContentType ∨
            containsSub "html".toList partContentType ∨
            containsSub "xml".toList partContentType then
          let r := rep body st
          (headers ++ crlf2 ++ r.1, r.2)
        else (headers ++ crlf2 ++ body, st)
    | none => (headers ++ crlf2 ++ body, st)

/-- `rewriteMultipart` (main.ts 626-659): split the buffered body on the
literal `--boundary` marker, process each part, and rejoin with the original
marker. -/
def replaceInMultipart {σ : Type} (parseJson : List Char → Option (Heap × JVal))
    (stringifyJson : Heap → JVal → List Char) (rep : List Char → σ → List Char × σ)
    (boundary : List Char) (st : σ) (text : List Char) : List Char :=
  let marker := ['-', '-'] ++ boundary
  let parts := splitOnSep marker text
  List.intercalate marker (mapWithState (processPart parseJson stringifyJson rep) st parts).1

theorem findFrom_some [DecidableEq α] {pat s : List α} {li j : Nat}
    (h : findFrom pat s li = some j) :
    li ≤ j ∧ pat.isPrefixOf (s.drop j) = true := by
  unfold findFrom at h
  cases hl : (List.range (s.length + 1)).filter
      (fun j => decide (li ≤ j) && pat.isPrefixOf (s.drop j)) with
  | nil => rw [hl] at h; exact absurd h (by simp)
  | cons x t =>
      rw [hl] at h
      simp only [List.head?_cons, Option.some.injEq] at h
      have hx : j ∈ (List.range (s.length + 1)).filter
          (fun k => decide (li ≤ k) && pat.isPrefixOf (s.drop k)) := by
        rw [hl, ← h]
        exact List.mem_cons_self _ _
      have := List.of_mem_filter hx
      simp only [Bool.and_eq_true, decide_eq_true_eq] at this
      exact this

/-- A successful split occurrence reconstructs the string. -/
theorem findFrom_decomp [DecidableEq α] {pat s : List α} {j : Nat}
    (h : findFrom pat s 0 = some j) :
    s = s.take j ++ pat ++ s.drop (j + pat.length) := by
  obtain ⟨-, hpre⟩ := findFrom_some h
  have hp : pat <+: s.drop j := List.isPrefixOf_iff_prefix.1 hpre
  have htk : pat = (s.drop j).take pat.length := List.prefix_iff_eq_take.1 hp
  have hdj : s.drop j = pat ++ s.drop (j + pat.length) := by
    conv_lhs => rw [← List.take_append_drop pat.length (s.drop j)]
    rw [← htk, List.drop_drop, Nat.add_comm]
  rw [List.append_assoc, ← hdj, List.take_append_drop]

theorem splitOnSepF_ne_nil [DecidableEq α] (sep : List α) (fuel : Nat) (s : List α) :
    splitOnSepF sep fuel s ≠ [] := by
  cases fuel with
  | zero => simp [splitOnSepF]
  | succ fuel =>
      simp only [splitOnSepF]
      cases findFrom sep s 0 <;> simp

theorem intercalate_cons_of_ne_nil [DecidableEq α] (sep x : List α)
    (xs : List (List α)) (h : xs ≠ []) :
    List.intercalate sep (x :: xs) = x ++ sep ++ List.intercalate sep xs := by
  cases xs with
  | nil => exact absurd rfl h
  | cons y ys => simp [List.intercalate, List.intersperse]

/-- Splitting on a non-empty separator and rejoining with it reconstructs the
original string. -/
theorem intercalate_splitOnSepF [DecidableEq α] (sep : List α) (hsep : sep ≠ []) :
    ∀ fuel s, s.length < fuel →
      List.intercalate sep (splitOnSepF sep fuel s) = s := by
  intro fuel
  induction fuel with
  | zero => intro s h; omega
  | succ fuel ih =>
      intro s hlen
      simp only [splitOnSepF]
      cases hf : findFrom sep s 0 with
      | none => simp [List.intercalate]
      | some j =>
          dsimp only
          have hdec := findFrom_decomp hf
          have hple : sep.length ≥ 1 := by
            cases sep with
            | nil => exact absurd rfl hsep
            | cons a t => simp
          have hjlen : j + sep.length ≤ s.length := by
            by_contra hc
            push_neg at hc
            have : s.length < (s.take j ++ sep ++ s.drop (j + sep.length)).length := by
              simp only [List.length_append, List.length_take, List.length_drop]
              omega
            rw [← hdec] at this
            omega
          have hrec : (s.drop (j + sep.length)).length < fuel := by
            simp only [List.length_drop]
            omega
          rw [intercalate_cons_of_ne_nil sep _ _ (splitOnSepF_ne_nil sep fuel _), ih _ hrec]
          conv_rhs => rw [hdec]

theorem splitOnSep_reconstruct [DecidableEq α] (sep : List α) (hsep : sep ≠ [])
    (s : List α) : List.intercalate sep (splitOnSep sep s) = s :=
  intercalate_splitOnSepF sep hsep (s.length + 1) s (by omega)

/-- A part that does contain the blank-line separator is reassembled
byte-identically from its header block and rejoined body. -/
theorem part_reconstruct (part : List Char) (h : (splitOnSep crlf2 part).tail ≠ []) :
    (splitOnSep crlf2 part).headI ++ crlf2 ++
      List.intercalate crlf2 (splitOnSep crlf2 part).tail = part := by
  have hne : splitOnSep crlf2 part ≠ [] := splitOnSepF_ne_nil crlf2 _ part
  have hrec := splitOnSep_reconstruct crlf2 (by decide) part
  cases hp : splitOnSep crlf2 part with
  | nil => exact absurd hp hne
  | cons x xs =>
      rw [hp] at hrec h
      rw [intercalate_cons_of_ne_nil crlf2 x xs (by simpa using h)] at hrec
      simpa using hrec

/-- A part without any blank-line separator is its own header block with an
empty body. -/
theorem part_no_sep (part : List Char) (h : (splitOnSep crlf2 part).tail = []) :
    (splitOnSep crlf2 part).headI = part := by
  have hne : splitOnSep crlf2 part ≠ [] := splitOnSepF_ne_nil crlf2 _ part
  have hrec := splitOnSep_reconstruct crlf2 (by decide) part
  cases hp : splitOnSep crlf2 part with
  | nil => exact absurd hp hne
  | cons x xs =>
      rw [hp] at hrec h
      have hxs : xs = [] := by simpa using h
      subst hxs
      simpa [List.intercalate, List.intersperse] using hrec

/-- An always-failing `JSON.parse` stand-in for the concrete multipart
examples (none of which carry a JSON part). -/
def pjNone : List Char → Option (Heap × JVal) := fun _ => none

/-- A trivial `JSON.stringify` stand-in for the concrete multipart examples. -/
def sjNil : Heap → JVal → List Char := fun _ _ => []

/-- A multipart part that declares an unrecognized content type and contains
no blank-line (`\r\n\r\n`) separator. -/
def octetPart : List Char := "\r\ncontent-type: application/octet-stream\r\n".toList

/-- A text part used by the C8 witness. -/
def textPart : List Char := "\r\ncontent-type: text/plain\r\n\r\nhello orig!".toList

end ResponseRewriter

open ResponseRewriter

/-- C1 (code evaluated at the failing inputs): splitting the UTF-8 bytes of the
input across chunks changes the concatenated output of the text transform
pipeline.  With pattern `ab` → `X` (code points 97 98 → 88): the whole text
`ab` in one chunk yields `X`, but split as `a`,`b` it yields `ab` — each
`transform` call pattern-replaces and enqueues *all* of its pending code points
(main.ts 844-853), so a pattern occurrence spanning a chunk boundary is never
seen.  And the bytes of `测` (`e6 b5 8b`) in one chunk yield `测` (code point
0x6d4b), but split mid-sequence as `e6`,`b5 8b` they yield *nothing*: the loop
carries the incomplete bytes into `utf8Buffer` (main.ts 761-765), but lines
855-858 then overwrite `utf8Buffer` with the encoding of the already-cleared
pending array, destroying the carry, so the code points are lost, not carried
forward. -/
theorem c1_chunking_not_invariant :
    (runTextStream (listReplaceAll [97, 98] [88]) (fun _ => true) 1024
        [[97, 98]]).flatten = [88] ∧
    (runTextStream (listReplaceAll [97, 98] [88]) (fun _ => true) 1024
        [[97], [98]]).flatten = [97, 98] ∧
    (runTextStream (listReplaceAll [97, 98] [88]) (fun _ => true) 1024
        [[0xe6, 0xb5, 0x8b]]).flatten = [0x6d4b] ∧
    (runTextStream (listReplaceAll [97, 98] [88]) (fun _ => true) 1024
        [[0xe6], [0xb5, 0x8b]]).flatten = [] := by
  refine ⟨by decide, by decide, by decide, by decide⟩

/-- C5 (code evaluated at the failing input): when the pending length minus the
safe index exceeds the window size with a nonzero safe index, the code points
up to the safe index ARE emitted (pattern-replaced) and the safe index IS reset
to zero, but the remainder is NOT retained: `codePoints.length = 0` (main.ts
833) clears the array before `codePoints.push(...codePoints.slice(lastSafeIndex))`
(834) reads it, so the pushed slice is empty and the remainder is dropped.
With window size 2 and the single chunk `a.bcde` (the safe index is 2 after
`.`), the overflow fires at `d`: the emitted windows are `a.` and — after `e`
is scanned — `e`; the code points `bcd` appear in no emitted window and not in
the retained state (whose `utf8Buffer` ends empty).  With the hard-coded
default window size of 1024 the same slip fires on any chunk with 1025 pending
code points past a nonzero safe index. -/
theorem c5_window_remainder_dropped :
    textTransformChunk (listReplaceAll [122, 122] [88]) (fun _ => true)
        { utf8Buffer := [], lastScript := none, maxWindowSize := 2 }
        [97, 46, 98, 99, 100, 101] =
      ({ utf8Buffer := [], lastScript := some Script.Latin, maxWindowSize := 2 },
        [[97, 46], [101]]) := by
  decide

/-- C2: the streaming JSON rewriter does NOT emit incrementally.  For every
chunk sequence whatsoever, the `transform` calls enqueue nothing at all: the
token buffer is only ever filled by the clarinet callbacks, which fire only
under `parser.write`, and `transform` never calls `parser.write` — it only
accumulates `transformer.buffer`.  The whole document is therefore materialized
internally and emitted only by the final `flush` (main.ts 451-474), refuting
the claim that tokens completed by a chunk are enqueued at the end of that
chunk's processing. -/
theorem c2_transform_never_emits (chunks : List (List Char)) :
    (runJsonChunks jsonInitState chunks).2 = [] :=
  runJsonChunks_emits_nothing jsonInitState chunks rfl

/-- C3 counterexample: feed the single chunk `"\uD834` (a string opening quote
followed by a high-surrogate escape) and let the stream end.  The transform
loop already appended the escape text `\uD834` to the raw buffer at its
original position, and the stream-end flush prepends a second copy, so the
text handed to the structural parser contains the escape text twice (and the
buffer's original occurrence is no longer at its original position, which is
now occupied by the prepended copy).  This refutes "appears exactly once, in
its original position". -/
theorem c3_reinjection_counterexample :
    countOccurrences ['\\', 'u', 'D', '8', '3', '4']
        (List.flatten [['"', '\\', 'u', 'D', '8', '3', '4']]) = 1 ∧
    countOccurrences ['\\', 'u', 'D', '8', '3', '4']
        (jsonFlushParserInput
          (runJsonChunks jsonInitState [['"', '\\', 'u', 'D', '8', '3', '4']]).1) = 2 := by
  constructor <;> decide

/-- C3 (amended): if the stream ends while a high surrogate escape is pending
(state `HighSurrogate`), the flush prepends the literal escape text
(backslash-u plus the 4 pending hex digits) to the buffered raw text handed to
the structural parser; since the transform already appended those characters to
the buffer as they were consumed, the buffer ends with that same escape text,
so the parser input contains the escape text both at the front (the injected
copy) and at its original position at the end of the buffer — it is not lost,
but it is duplicated rather than appearing exactly once. -/
theorem c3_reinjection_amended (chunks : List (List Char))
    (h : (runJsonChunks jsonInitState chunks).1.escapeState = EscapeState.HighSurrogate) :
    ∃ h4 p,
      (runJsonChunks jsonInitState chunks).1.highSurrogate = some h4 ∧
      h4.length = 4 ∧
      jsonFlushParserInput (runJsonChunks jsonInitState chunks).1 =
        ('\\' :: 'u' :: h4) ++ (runJsonChunks jsonInitState chunks).1.buffer ∧
      (runJsonChunks jsonInitState chunks).1.buffer = p ++ ('\\' :: 'u' :: h4) := by
  have hinv := escInv_run jsonInitState chunks (by simp [escInv, jsonInitState])
  rw [escInv, h] at hinv
  obtain ⟨h4, p, hh, hlen, hbuf⟩ := hinv
  refine ⟨h4, p, hh, hlen, ?_, hbuf⟩
  unfold jsonFlushParserInput
  rw [if_pos h, hh]
  simp

/-- C3 witness: the amended theorem applied to the concrete chunk sequence
`["\uD834]` (stream ending right after the high-surrogate escape). -/
theorem c3_reinjection_amended_witness :
    (runJsonChunks jsonInitState [['"', '\\', 'u', 'D', '8', '3', '4']]).1.escapeState =
      EscapeState.HighSurrogate ∧
    ∃ h4 p,
      (runJsonChunks jsonInitState [['"', '\\', 'u', 'D', '8', '3', '4']]).1.highSurrogate =
        some h4 ∧
      h4.length = 4 ∧
      jsonFlushParserInput (runJsonChunks jsonInitState [['"', '\\', 'u', 'D', '8', '3', '4']]).1 =
        ('\\' :: 'u' :: h4) ++
          (runJsonChunks jsonInitState [['"', '\\', 'u', 'D', '8', '3', '4']]).1.buffer ∧
      (runJsonChunks jsonInitState [['"', '\\', 'u', 'D', '8', '3', '4']]).1.buffer =
        p ++ ('\\' :: 'u' :: h4) :=
  ⟨by decide, c3_reinjection_amended [['"', '\\', 'u', 'D', '8', '3', '4']] (by decide)⟩

/-- C4 counterexample: `[0x80, 0x80, 0x80]` is a length-3 byte sequence accepted
by `isValidUtf8Sequence` (its `case 3` never restricts the lead byte itself),
yet `codePointFromUtf8` returns code point 0, whose standard minimal UTF-8
encoding is `[0x00]`, not `[0x80, 0x80, 0x80]`.  So decode-then-re-encode does
not reproduce the bytes, refuting the claim as stated. -/
theorem c4_decode_encode_counterexample :
    isValidUtf8Sequence [0x80, 0x80, 0x80] = true ∧
    codePointFromUtf8 [0x80, 0x80, 0x80] = some 0 ∧
    utf8Encode 0 ≠ [0x80, 0x80, 0x80] := by
  refine ⟨by decide, by decide, by decide⟩

/-- C4 (amended): for every byte sequence whose length equals the sequence
length declared by its lead byte (which is how every call site slices byte
sequences, via `getUtf8SequenceInfo`), if `isValidUtf8Sequence` accepts it then
`codePointFromUtf8` returns the Unicode scalar value (in range, not a surrogate)
whose standard minimal UTF-8 encoding is exactly those bytes; and whenever
`isValidUtf8Sequence` rejects any byte sequence, `codePointFromUtf8` returns
`none`. -/
theorem c4_utf8_roundtrip (bytes : List Nat)
    (hbound : ∀ b ∈ bytes, b < 256)
    (hlen : bytes.length = getUtf8SequenceInfo (bytes.headI)) :
    (isValidUtf8Sequence bytes = true →
      ∃ c, codePointFromUtf8 bytes = some c ∧ utf8Encode c = bytes ∧
        c ≤ 0x10ffff ∧ ¬ (0xd800 ≤ c ∧ c ≤ 0xdfff)) ∧
    (isValidUtf8Sequence bytes = false → codePointFromUtf8 bytes = none) := by
  constructor
  · intro hvalid
    rcases bytes with _ | ⟨b0, _ | ⟨b1, _ | ⟨b2, _ | ⟨b3, _ | ⟨b4, rest⟩⟩⟩⟩⟩
    · -- length 0 contradicts hlen (getUtf8SequenceInfo 0 = 1)
      simp [getUtf8SequenceInfo] at hlen
    · -- length 1
      have h0 : b0 < 256 := hbound b0 (by simp)
      have hv := hvalid
      simp only [isValidUtf8Sequence, List.tail_cons, List.all_nil, Bool.and_true,
        decide_eq_true_eq] at hv
      refine ⟨b0, by simp [codePointFromUtf8, hvalid], ?_, by omega, by omega⟩
      unfold utf8Encode
      rw [if_pos (by omega)]
    · -- length 2
      have h0 : b0 < 256 := hbound b0 (by simp)
      have h1 : b1 < 256 := hbound b1 (by simp)
      have hv := hvalid
      simp only [isValidUtf8Sequence, List.tail_cons, List.all_cons, List.all_nil,
        Bool.and_true, Bool.and_eq_true, decide_eq_true_eq, not_or, not_lt] at hv
      obtain ⟨hb0r, hb1r⟩ := hv
      refine ⟨b0 % 0x20 * 0x40 + b1 % 0x40, by simp [codePointFromUtf8, hvalid], ?_,
        by omega, by omega⟩
      unfold utf8Encode
      rw [if_neg (by omega), if_pos (by omega)]
      simp only [List.cons.injEq, and_true]
      omega
    · -- length 3
      have h0 : b0 < 256 := hbound b0 (by simp)
      have h1 : b1 < 256 := hbound b1 (by simp)
      have h2 : b2 < 256 := hbound b2 (by simp)
      have hlead : 0xe0 ≤ b0 ∧ b0 ≤ 0xef := getUtf8SequenceInfo_eq_three (by
        simpa using hlen.symm)
      have hv := hvalid
      simp only [isValidUtf8Sequence, List.tail_cons, List.all_cons, List.all_nil,
        Bool.and_true, Bool.and_eq_true, decide_eq_true_eq, not_and, not_or, not_lt] at hv
      obtain ⟨⟨he0, hed⟩, hc1, hc2⟩ := hv
      refine ⟨b0 % 0x10 * 0x1000 + b1 % 0x40 * 0x40 + b2 % 0x40,
        by simp [codePointFromUtf8, hvalid], ?_, by omega, ?_⟩
      · unfold utf8Encode
        rw [if_neg ?low, if_neg ?mid, if_pos (by omega)]
        case low =>
          rcases Nat.eq_or_lt_of_le hlead.1 with h | h
          · have := he0 h.symm
            omega
          · omega
        case mid =>
          rcases Nat.eq_or_lt_of_le hlead.1 with h | h
          · have := he0 h.symm
            omega
          · omega
        simp only [List.cons.injEq, and_true]
        omega
      · -- not a surrogate: surrogates need b0 = 0xed with b1 ≥ 0xa0
        intro ⟨hs1, hs2⟩
        by_cases hb0 : b0 = 0xed
        · have := hed hb0
          omega
        · omega
    · -- length 4
      have h0 : b0 < 256 := hbound b0 (by simp)
      have h1 : b1 < 256 := hbound b1 (by simp)
      have h2 : b2 < 256 := hbound b2 (by simp)
      have h3 : b3 < 256 := hbound b3 (by simp)
      have hv := hvalid
      simp only [isValidUtf8Sequence, List.tail_cons, List.all_cons, List.all_nil,
        Bool.and_true, Bool.and_eq_true, decide_eq_true_eq, not_and, not_or, not_lt] at hv
      obtain ⟨⟨hf0, hf4, hrange⟩, hc1, hc2, hc3⟩ := hv
      refine ⟨b0 % 0x8 * 0x40000 + b1 % 0x40 * 0x1000 + b2 % 0x40 * 0x40 + b3 % 0x40,
        by simp [codePointFromUtf8, hvalid], ?_, ?_, by omega⟩
      · unfold utf8Encode
        have hlow : ¬ (b0 % 0x8 * 0x40000 + b1 % 0x40 * 0x1000 + b2 % 0x40 * 0x40 +
            b3 % 0x40 < 0x10000) := by
          rcases Nat.eq_or_lt_of_le hrange.1 with h | h
          · have := hf0 h.symm
            omega
          · omega
        rw [if_neg (by omega), if_neg (by omega), if_neg hlow]
        simp only [List.cons.injEq, and_true]
        omega
      · -- in range: b0 = 0xf4 forces b1 ≤ 0x8f
        by_cases hb0 : b0 = 0xf4
        · have := hf4 hb0
          omega
        · omega
    · -- length ≥ 5 contradicts hlen (sequence lengths are at most 4)
      exfalso
      have := getUtf8SequenceInfo_le_four (b0 :: b1 :: b2 :: b3 :: b4 :: rest).headI
      simp only [List.length_cons] at hlen
      omega
  · intro hinvalid
    simp [codePointFromUtf8, hinvalid]

/-- C4 witness: the amended theorem applied at the concrete valid 3-byte
sequence `[0xe6, 0xb5, 0x8b]` (the character 测, U+6D4B). -/
theorem c4_utf8_roundtrip_witness :
    ∃ c, codePointFromUtf8 [0xe6, 0xb5, 0x8b] = some c ∧ utf8Encode c = [0xe6, 0xb5, 0x8b] ∧
      c ≤ 0x10ffff ∧ ¬ (0xd800 ≤ c ∧ c ≤ 0xdfff) :=
  (c4_utf8_roundtrip [0xe6, 0xb5, 0x8b] (by decide) (by decide)).1 (by decide)

/-- C6: cycle safety of the buffered deep replacement.  First conjunct: for
every heap (value graph, cycles included), seen-set and start value whose
references stay inside a well-formed region of `N` addresses, `deepReplace`
returns a result whenever its recursion budget exceeds the number of not-yet-
seen addresses — in particular heap size + 1 always suffices from an empty
seen-set, so the recursion terminates without any exception for every
self-referential input.  Second conjunct: on the concrete `a.self === a`
object, the call returns the fresh object `{self: <original a>}` (address 1),
whose cyclic field still references the containing object `a` (address 0,
returned unmodified by the seen-set short circuit, hence here the
"possibly rewritten" `a` is the original, unrewritten one), and the original
node is unchanged in the result heap. -/
theorem c6_cycle_safety :
    (∀ (σ : Type) (rep : List Char → σ → List Char × σ) (fuel N : Nat) (H : Heap)
        (seen : Finset Nat) (st : σ) (v : JVal),
        N ≤ H.length → heapClosedBelow N H → (∀ b ∈ valRefs v, b < N) →
        (Finset.range N \ seen).card < fuel →
        deepReplace rep fuel H seen st v ≠ none) ∧
    deepReplace repOrig 2 cyclicHeap ∅ () (.ref 0) =
      some (cyclicHeap ++ [.obj [⟨.str "self".toList, true, .ref 0⟩]], {0}, (), .ref 1) :=
  ⟨fun _ rep fuel N H seen st v h1 h2 h3 h4 =>
    deepReplace_total rep fuel N H seen st v h1 h2 h3 h4, by decide⟩

/-- C6 witness: the termination bound applied to the concrete cyclic heap
(`N = 1`, fuel 2). -/
theorem c6_cycle_safety_witness :
    deepReplace repOrig 2 cyclicHeap ∅ () (JVal.ref 0) ≠ none :=
  c6_cycle_safety.1 Unit repOrig 2 1 cyclicHeap ∅ () (.ref 0)
    (by decide) (by decide) (by decide) (by decide)

/-- C7 counterexample: on an object with a non-enumerable property `hidden`
and a symbol-keyed property, `deepReplace` returns a fresh object carrying
*only* the own enumerable string-keyed property `a`: the non-enumerable and
symbol-keyed properties are present on the input object but absent from the
returned object (they are skipped by `continue` in main.ts 546-548, and the
fresh `replacedObj` never receives them), refuting "still present (with its
original value) on the returned object". -/
theorem c7_passthrough_counterexample :
    deepReplace repOrig 2 c7Heap ∅ () (.ref 0) = some (c7HeapOut, {0}, (), .ref 1) ∧
    (∃ e ∈ nodeProps (c7Heap.getD 0 (.arr [])), e.key = PKey.str "hidden".toList) ∧
    (∃ e ∈ nodeProps (c7Heap.getD 0 (.arr [])), e.key = PKey.sym 0) ∧
    ¬ (∃ e ∈ nodeProps (c7HeapOut.getD 1 (.arr [])), e.key = PKey.str "hidden".toList) ∧
    ¬ (∃ e ∈ nodeProps (c7HeapOut.getD 1 (.arr [])), e.key = PKey.sym 0) := by
  refine ⟨by decide, by decide, by decide, by decide, by decide⟩

/-- C7 (amended): when `deepReplace` processes an object, only own,
enumerable, string-keyed properties are recursed into and rewritten — the
returned fresh object's keys are exactly those, in order — while every
non-enumerable and symbol-keyed property is skipped: it is not visited, is
omitted from the returned object, and is left untouched on the input object,
which is not modified (the result heap only appends fresh nodes). -/
theorem c7_only_own_enumerable_string {σ : Type}
    (rep : List Char → σ → List Char × σ) (fuel : Nat) (H : Heap) (seen : Finset Nat)
    (st : σ) (a : Nat) (props : List PropEntry) (H' : Heap) (seen' : Finset Nat)
    (st' : σ) (v' : JVal)
    (hseen : a ∉ seen) (hget : H.get? a = some (.obj props))
    (h : deepReplace rep (fuel + 1) H seen st (.ref a) = some (H', seen', st', v')) :
    ∃ out H1,
      deepReplacePropsWith (fun H2 s2 st2 v2 => deepReplace rep fuel H2 s2 st2 v2)
          H (insert a seen) st props = some (H1, seen', st', out) ∧
      H' = H1 ++ [.obj (out.map fun kv => ⟨.str kv.1, true, kv.2⟩)] ∧
      v' = .ref H1.length ∧
      out.map Prod.fst = (props.filter isVisitedProp).map propKeyStr ∧
      ∃ ext, H' = H ++ ext := by
  simp only [deepReplace, if_neg hseen] at h
  rw [hget] at h
  dsimp only at h
  cases hprops : deepReplacePropsWith
      (fun H2 s2 st2 v2 => deepReplace rep fuel H2 s2 st2 v2)
      H (insert a seen) st props with
  | none => rw [hprops] at h; exact absurd h (by simp)
  | some r1 =>
      obtain ⟨H1, seen1, st1, out1⟩ := r1
      rw [hprops] at h
      dsimp only at h
      simp only [Option.some.injEq, Prod.mk.injEq] at h
      obtain ⟨h1, h2, h3, h4⟩ := h
      subst h1; subst h2; subst h3; subst h4
      obtain ⟨-, ext, hH1, -, -⟩ :=
        deepReplacePropsWith_stepOK (deepReplace_stepOK rep fuel) props
          H (insert a seen) st _ _ _ _ hprops
      refine ⟨out1, H1, rfl, rfl, rfl,
        deepReplacePropsWith_keys props H (insert a seen) st _ _ _ _ hprops,
        ext ++ [.obj (out1.map fun kv => ⟨.str kv.1, true, kv.2⟩)], ?_⟩
      rw [hH1, List.append_assoc]

/-- C7 witness: the amended theorem applied to the concrete object with a
hidden and a symbol-keyed property. -/
theorem c7_only_own_enumerable_string_witness :
    ∃ out H1,
      deepReplacePropsWith (fun H2 s2 st2 v2 => deepReplace repOrig 1 H2 s2 st2 v2)
          c7Heap (insert 0 ∅) () (nodeProps (c7Heap.getD 0 (.arr []))) =
        some (H1, {0}, (), out) ∧
      c7HeapOut = H1 ++ [.obj (out.map fun kv => ⟨.str kv.1, true, kv.2⟩)] ∧
      JVal.ref 1 = JVal.ref H1.length ∧
      out.map Prod.fst =
        ((nodeProps (c7Heap.getD 0 (.arr []))).filter isVisitedProp).map propKeyStr ∧
      ∃ ext, c7HeapOut = c7Heap ++ ext :=
  c7_only_own_enumerable_string repOrig 1 c7Heap ∅ () 0
    (nodeProps (c7Heap.getD 0 (.arr []))) c7HeapOut {0} () (.ref 1)
    (by decide) (by decide) (by decide)

/-- C9: `deepReplace` never mutates its input.  The result heap extends the
input heap (`H' = H ++ ext`): every original object and array is structurally
unchanged at its address after the call.  Every composite the call returns is
freshly allocated (an address at or past the original heap length), except
when the input reference is already in the seen-set, in which case the call
returns the heap, the seen-set, the regex state and the original reference
entirely unchanged; and any original address appearing anywhere in the
returned value or inside the freshly allocated nodes is in the final seen-set,
i.e. reached the output only through such a seen-set short circuit. -/
theorem c9_deepReplace_no_mutation {σ : Type}
    (rep : List Char → σ → List Char × σ) (fuel : Nat) (H : Heap) (seen : Finset Nat)
    (st : σ) (v : JVal) (H' : Heap) (seen' : Finset Nat) (st' : σ) (v' : JVal)
    (h : deepReplace rep fuel H seen st v = some (H', seen', st', v')) :
    (∃ ext, H' = H ++ ext ∧ refsBelowIn H.length seen' (ext.map nodeRefs).flatten) ∧
    refsBelowIn H.length seen' (valRefs v') ∧
    (∀ a, v = .ref a → a ∈ seen → H' = H ∧ seen' = seen ∧ st' = st ∧ v' = v) ∧
    (∀ a, v = .ref a → a ∉ seen → a < H.length →
      ∃ b, v' = .ref b ∧ H.length ≤ b) := by
  obtain ⟨hsub, ext, hH, hext, hv⟩ := deepReplace_stepOK rep fuel H seen st v _ _ _ _ h
  refine ⟨⟨ext, hH, hext⟩, hv, ?_, ?_⟩
  · rintro a rfl hmem
    cases fuel with
    | zero => exact absurd h (by simp [deepReplace])
    | succ fuel =>
        simp only [deepReplace, if_pos hmem, Option.some.injEq, Prod.mk.injEq] at h
        obtain ⟨h1, h2, h3, h4⟩ := h
        exact ⟨h1.symm, h2.symm, h3.symm, h4.symm⟩
  · rintro a rfl hmem hlt
    cases fuel with
    | zero => exact absurd h (by simp [deepReplace])
    | succ fuel =>
        simp only [deepReplace, if_neg hmem] at h
        have hget : H.get? a = some (H.getD a (.arr [])) := by
          rw [List.get?_eq_getElem?, List.getElem?_eq_getElem hlt,
            List.getD_eq_getElem _ _ hlt]
        rw [hget] at h
        cases hnode : H.getD a (.arr []) with
        | arr elems =>
            rw [hnode] at h
            dsimp only at h
            cases hlist : deepReplaceListWith
                (fun H2 s2 st2 v2 => deepReplace rep fuel H2 s2 st2 v2)
                H (insert a seen) st elems with
            | none => rw [hlist] at h; exact absurd h (by simp)
            | some r1 =>
                obtain ⟨H1, seen1, st1, elems1⟩ := r1
                rw [hlist] at h
                dsimp only at h
                simp only [Option.some.injEq, Prod.mk.injEq] at h
                obtain ⟨-, -, -, h4⟩ := h
                obtain ⟨-, ext1, hH1, -, -⟩ :=
                  deepReplaceListWith_stepOK (deepReplace_stepOK rep fuel) elems
                    H (insert a seen) st _ _ _ _ hlist
                exact ⟨H1.length, h4.symm, by rw [hH1]; simp⟩
        | obj props =>
            rw [hnode] at h
            dsimp only at h
            cases hprops : deepReplacePropsWith
                (fun H2 s2 st2 v2 => deepReplace rep fuel H2 s2 st2 v2)
                H (insert a seen) st props with
            | none => rw [hprops] at h; exact absurd h (by simp)
            | some r1 =>
                obtain ⟨H1, seen1, st1, props1⟩ := r1
                rw [hprops] at h
                dsimp only at h
                simp only [Option.some.injEq, Prod.mk.injEq] at h
                obtain ⟨-, -, -, h4⟩ := h
                obtain ⟨-, ext1, hH1, -, -⟩ :=
                  deepReplacePropsWith_stepOK (deepReplace_stepOK rep fuel) props
                    H (insert a seen) st _ _ _ _ hprops
                exact ⟨H1.length, h4.symm, by rw [hH1]; simp⟩

/-- C9 witness: the theorem applied to the diamond-sharing heap (two arrays
sharing one child), where the second occurrence of the shared child is
short-circuited by the seen-set and returned as the original reference. -/
theorem c9_deepReplace_no_mutation_witness :
    ((∃ ext, diamondHeap ++
          [.arr [.prim (.str "repl".toList)], .arr [.ref 2, .ref 1]] =
            diamondHeap ++ ext ∧
        refsBelowIn diamondHeap.length ({1, 0} : Finset Nat)
          ((ext.map nodeRefs).flatten)) ∧
      refsBelowIn diamondHeap.length ({1, 0} : Finset Nat) (valRefs (.ref 3)) ∧
      (∀ a, JVal.ref 0 = JVal.ref a → a ∈ (∅ : Finset Nat) →
        diamondHeap ++ [.arr [.prim (.str "repl".toList)], .arr [.ref 2, .ref 1]] =
            diamondHeap ∧
          ({1, 0} : Finset Nat) = ∅ ∧ () = () ∧ JVal.ref 3 = JVal.ref 0) ∧
      (∀ a, JVal.ref 0 = JVal.ref a → a ∉ (∅ : Finset Nat) → a < diamondHeap.length →
        ∃ b, JVal.ref 3 = JVal.ref b ∧ diamondHeap.length ≤ b)) :=
  c9_deepReplace_no_mutation repOrig 3 diamondHeap ∅ () (.ref 0)
    (diamondHeap ++ [.arr [.prim (.str "repl".toList)], .arr [.ref 2, .ref 1]])
    {1, 0} () (.ref 3) (by decide)

/-- C10: the rewrite is deterministic despite the single mutable global RegExp
shared across all replacement sites.  The normalization (main.ts 517-521)
always produces a global regex (first conjunct), and a global regex's
`[Symbol.replace]` overwrites its `lastIndex` with 0 before matching and
leaves it at 0 afterwards, so each per-string replacement step returns the
same string whatever `lastIndex` the previous replacement site left behind
(second conjunct); consequently two `deepReplace` traversals started from any
two values of the shared regex's `lastIndex` — in particular a second,
successive call starting from whatever state the first call left — produce
identical heaps, seen-sets and result values (third conjunct). -/
theorem c10_shared_regex_deterministic (pat repl : List Char) :
    (∀ flags, 'g' ∈ normalizeRegexFlags flags) ∧
    (∀ (s : List Char) (li li' : Nat),
      (symbolReplaceG pat repl s li).1 = (symbolReplaceG pat repl s li').1 ∧
      (symbolReplaceG pat repl s li).2 = 0) ∧
    (∀ (fuel : Nat) (H : Heap) (seen : Finset Nat) (v : JVal) (li li' : Nat),
      Option.map (fun r => (r.1, r.2.1, r.2.2.2))
          (deepReplace (symbolReplaceG pat repl) fuel H seen li v) =
        Option.map (fun r => (r.1, r.2.1, r.2.2.2))
          (deepReplace (symbolReplaceG pat repl) fuel H seen li' v)) := by
  refine ⟨?_, ?_, ?_⟩
  · intro flags
    unfold normalizeRegexFlags
    split_ifs with h
    · exact h
    · simp
  · intro s li li'
    exact ⟨rfl, rfl⟩
  · intro fuel H seen v li li'
    have hrep : ∀ (s : List Char) (x y : Nat),
        symbolReplaceG pat repl s x = symbolReplaceG pat repl s y := fun _ _ _ => rfl
    rcases deepReplace_rel (symbolReplaceG pat repl) hrep li li' fuel H seen li li' v
        (Or.inr ⟨rfl, rfl⟩) with ⟨hx, hy⟩ | ⟨H', seen', v', sx, sy, hx, hy, -⟩
    · dsimp only at hx hy
      rw [hx, hy]
    · dsimp only at hx hy
      rw [hx, hy]
      rfl

/-- C8 counterexample: the part `\r\ncontent-type: application/octet-stream\r\n`
has an unrecognized declared content type but no blank-line separator, so
`part.split('\r\n\r\n')` yields only a header block with an empty body and the
reassembly `headers + '\r\n\r\n' + body` appends four bytes — the part is not
reproduced byte-identical in the rejoined output, refuting the claim as
stated. -/
theorem c8_multipart_counterexample :
    processPart pjNone sjNil repOrig () octetPart = (octetPart ++ crlf2, ()) ∧
    octetPart ++ crlf2 ≠ octetPart := by
  constructor <;> decide

/-- C8 (amended): the multipart body splits on the literal `--boundary`
marker and the processed parts are rejoined with that original marker
(splitting and rejoining alone reconstructs the body).  Empty and terminal
(`--`) parts pass through unchanged.  Each remaining part splits into a
header block and body at the first blank line; if its declared content type
includes `json`, the body is parsed and the replacement applied via the deep
replacement over the parsed tree (falling back to plain pattern replacement
of the body when parsing fails); if it includes `text`, `html` or `xml`,
plain pattern replacement is applied to the body; with any other (or missing)
declared content type the part is reproduced byte-identical *provided it
contains a blank-line separator* — a part without one gains an appended
`\r\n\r\n`, its header block intact. -/
theorem c8_multipart_dispatch {σ : Type}
    (parseJson : List Char → Option (Heap × JVal))
    (stringifyJson : Heap → JVal → List Char)
    (rep : List Char → σ → List Char × σ) :
    (∀ (boundary : List Char) (st : σ) (text : List Char),
      replaceInMultipart parseJson stringifyJson rep boundary st text =
        List.intercalate (['-', '-'] ++ boundary)
          (mapWithState (processPart parseJson stringifyJson rep) st
            (splitOnSep (['-', '-'] ++ boundary) text)).1 ∧
      List.intercalate (['-', '-'] ++ boundary)
        (splitOnSep (['-', '-'] ++ boundary) text) = text) ∧
    (∀ (st : σ) (part : List Char), jsTrim part = [] ∨ jsTrim part = ['-', '-'] →
      processPart parseJson stringifyJson rep st part = (part, st)) ∧
    (∀ (st : σ) (part : List Char),
      ¬ (jsTrim part = [] ∨ jsTrim part = ['-', '-']) →
      (splitOnSep crlf2 part).tail ≠ [] →
      (matchContentType (splitOnSep crlf2 part).headI = none ∨
        ∃ ct, matchContentType (splitOnSep crlf2 part).headI = some ct ∧
          containsSub "json".toList (ct.map Char.toLower) = false ∧
          containsSub "text".toList (ct.map Char.toLower) = false ∧
          containsSub "html".toList (ct.map Char.toLower) = false ∧
          containsSub "xml".toList (ct.map Char.toLower) = false) →
      processPart parseJson stringifyJson rep st part = (part, st)) ∧
    (∀ (st : σ) (part : List Char),
      ¬ (jsTrim part = [] ∨ jsTrim part = ['-', '-']) →
      (splitOnSep crlf2 part).tail = [] →
      (matchContentType (splitOnSep crlf2 part).headI = none ∨
        ∃ ct, matchContentType (splitOnSep crlf2 part).headI = some ct ∧
          containsSub "json".toList (ct.map Char.toLower) = false ∧
          containsSub "text".toList (ct.map Char.toLower) = false ∧
          containsSub "html".toList (ct.map Char.toLower) = false ∧
          containsSub "xml".toList (ct.map Char.toLower) = false) →
      processPart parseJson stringifyJson rep st part = (part ++ crlf2, st)) ∧
    (∀ (st : σ) (part : List Char) (ct : List Char),
      ¬ (jsTrim part = [] ∨ jsTrim part = ['-', '-']) →
      matchContentType (splitOnSep crlf2 part).headI = some ct →
      containsSub "json".toList (ct.map Char.toLower) = false →
      (containsSub "text".toList (ct.map Char.toLower) = true ∨
        containsSub "html".toList (ct.map Char.toLower) = true ∨
        containsSub "xml".toList (ct.map Char.toLower) = true) →
      processPart parseJson stringifyJson rep st part =
        ((splitOnSep crlf2 part).headI ++ crlf2 ++
          (rep (List.intercalate crlf2 (splitOnSep crlf2 part).tail) st).1,
         (rep (List.intercalate crlf2 (splitOnSep crlf2 part).tail) st).2)) ∧
    (∀ (st : σ) (part : List Char) (ct : List Char) (Hp : Heap) (vp : JVal)
        (H' : Heap) (seen' : Finset Nat) (st' : σ) (v' : JVal),
      ¬ (jsTrim part = [] ∨ jsTrim part = ['-', '-']) →
      matchContentType (splitOnSep crlf2 part).headI = some ct →
      containsSub "json".toList (ct.map Char.toLower) = true →
      parseJson (List.intercalate crlf2 (splitOnSep crlf2 part).tail) = some (Hp, vp) →
      deepReplace rep (Hp.length + 1) Hp ∅ st vp = some (H', seen', st', v') →
      processPart parseJson stringifyJson rep st part =
        ((splitOnSep crlf2 part).headI ++ crlf2 ++ stringifyJson H' v', st')) ∧
    (∀ (st : σ) (part : List Char) (ct : List Char),
      ¬ (jsTrim part = [] ∨ jsTrim part = ['-', '-']) →
      matchContentType (splitOnSep crlf2 part).headI = some ct →
      containsSub "json".toList (ct.map Char.toLower) = true →
      parseJson (List.intercalate crlf2 (splitOnSep crlf2 part).tail) = none →
      processPart parseJson stringifyJson rep st part =
        ((splitOnSep crlf2 part).headI ++ crlf2 ++
          (rep (List.intercalate crlf2 (splitOnSep crlf2 part).tail) st).1,
         (rep (List.intercalate crlf2 (splitOnSep crlf2 part).tail) st).2)) := by
  refine ⟨?_, ?_, ?_, ?_, ?_, ?_, ?_⟩
  · intro boundary st text
    exact ⟨rfl, splitOnSep_reconstruct _ (by simp) text⟩
  · intro st part h
    unfold processPart
    rw [if_pos h]
  · intro st part h1 h2 hct
    unfold processPart
    rw [if_neg h1]
    dsimp only
    rcases hct with hnone | ⟨ct, hsome, hj, ht, hh, hx⟩
    · rw [hnone]
      dsimp only
      rw [Prod.mk.injEq]
      exact ⟨part_reconstruct part h2, rfl⟩
    · rw [hsome]
      dsimp only
      rw [hj]
      simp only [Bool.false_eq_true, if_false]
      rw [if_neg (by
        intro hcon
        rcases hcon with hc | hc | hc
        · exact absurd hc (by rw [ht]; simp)
        · exact absurd hc (by rw [hh]; simp)
        · exact absurd hc (by rw [hx]; simp))]
      rw [Prod.mk.injEq]
      exact ⟨part_reconstruct part h2, rfl⟩
  · intro st part h1 h2 hct
    unfold processPart
    rw [if_neg h1]
    dsimp only
    have hbody : List.intercalate crlf2 (splitOnSep crlf2 part).tail = [] := by
      rw [h2]
      simp [List.intercalate]
    have hhead := part_no_sep part h2
    rcases hct with hnone | ⟨ct, hsome, hj, ht, hh, hx⟩
    · rw [hnone]
      dsimp only
      rw [Prod.mk.injEq, hbody, hhead]
      exact ⟨by simp, rfl⟩
    · rw [hsome]
      dsimp only
      rw [hj]
      simp only [Bool.false_eq_true, if_false]
      rw [if_neg (by
        intro hcon
        rcases hcon with hc | hc | hc
        · exact absurd hc (by rw [ht]; simp)
        · exact absurd hc (by rw [hh]; simp)
        · exact absurd hc (by rw [hx]; simp))]
      rw [Prod.mk.injEq, hbody, hhead]
      exact ⟨by simp, rfl⟩
  · intro st part ct h1 hsome hj htext
    unfold processPart
    rw [if_neg h1]
    dsimp only
    rw [hsome]
    dsimp only
    rw [hj]
    simp only [Bool.false_eq_true, if_false]
    rw [if_pos htext]
  · intro st part ct Hp vp H' seen' st' v' h1 hsome hj hparse hdeep
    unfold processPart
    rw [if_neg h1]
    dsimp only
    rw [hsome]
    dsimp only
    rw [hj]
    simp only [if_true]
    rw [hparse]
    dsimp only
    rw [hdeep]
  · intro st part ct h1 hsome hj hparse
    unfold processPart
    rw [if_neg h1]
    dsimp only
    rw [hsome]
    dsimp only
    rw [hj]
    simp only [if_true]
    rw [hparse]

/-- C8 witness: the dispatch theorem applied to a concrete `text/plain` part
containing the pattern. -/
theorem c8_multipart_dispatch_witness :
    processPart pjNone sjNil repOrig () textPart =
      ((splitOnSep crlf2 textPart).headI ++ crlf2 ++
        (repOrig (List.intercalate crlf2 (splitOnSep crlf2 textPart).tail) ()).1,
       (repOrig (List.intercalate crlf2 (splitOnSep crlf2 textPart).tail) ()).2) :=
  (c8_multipart_dispatch pjNone sjNil repOrig).2.2.2.2.1 () textPart
    "text/plain".toList (by decide) (by decide) (by decide) (Or.inl (by decide))
